import Mathlib

/-!
# Verification of the sorting-algorithm-benchmark repository

A shallow embedding of `benchmark.py` and the ten strategy modules under
`sorting/`, together with proofs about them.

Python strings are modelled as lists of characters (`Str`); Python's string
comparison is lexicographic on code points, which is exactly Mathlib's
lexicographic linear order on `List Char`.  Python lists of strings are
`List Str`; in-place index updates are modelled with `List.set`, and reads
`arr[i]` with `List.getD` (every read performed by the embedded code is in
range, `[]` is the junk value).  Fallible code returns `Option`/`Except`.
-/

set_option maxHeartbeats 1600000
set_option maxRecDepth 100000

/-- A Python string: a sequence of code points. -/
abbrev Str := List Char

/-- The read `arr[j]` on a Python list of strings. -/
def idx (arr : List Str) (j : Nat) : Str := arr.getD j []

/-- `arr[i], arr[j] = arr[j], arr[i]`: both cells are read before either is
written. -/
def lswap (arr : List Str) (i j : Nat) : List Str :=
  (arr.set i (idx arr j)).set j (idx arr i)

/-- Model of Python's built-in stable `sorted` (Timsort).  A stable sort is
extensionally determined by its ordering, so the verified `List.mergeSort`
stands in for Timsort. -/
def pySorted (le : α → α → Bool) (l : List α) : List α := l.mergeSort le

/-- The boolean form of the string order used when `sorted` is called on
strings. -/
def strLe (a b : Str) : Bool := decide (a ≤ b)

/-! ## sorting/merge.py -/

namespace merge

/-- The three `while` loops of `merge.py`: merge two runs front to back,
taking from `L` while `L[i] <= R[j]`, then flush whichever run is left. -/
def mergeLoop : List Str → List Str → List Str
  | [], r => r
  | l, [] => l
  | x :: l, y :: r =>
    if x ≤ y then x :: mergeLoop l (y :: r)
    else y :: mergeLoop (x :: l) r

/-- `merge.sort`: copy, split at `len // 2`, recursively sort both halves,
merge them back. -/
def sort (data : List Str) : List Str :=
  if h : data.length > 1 then
    mergeLoop (sort (data.take (data.length / 2))) (sort (data.drop (data.length / 2)))
  else data
termination_by data.length
decreasing_by
  · simp only [List.length_take]; omega
  · simp only [List.length_drop]; omega

end merge

/-! ## The gapped insertion loop shared by insertion.py, shell.py and the
`_insertion_sort` helper of bucket.py

`insertion.py`'s inner loop

    while j >= 0 and result[j] > key: result[j+1] = result[j]; j -= 1
    result[j+1] = key

is the `gap = 1` instance of `shell.py`'s

    while j >= gap and result[j-gap] > temp: result[j] = result[j-gap]; j -= gap
    result[j] = temp

once the position being written (`j+1` in insertion.py, `j` in shell.py) is
tracked directly.  We embed the loop once, with that hole position as `j`.
The `0 < gap` conjunct in the guard records that the sources only run the
loop with the positive gaps `1, 4, 10, ...` (it is what makes the loop
terminate). -/

/-- The shared inner `while` loop: shift `arr[j-gap]` into the hole at `j`
while it exceeds `temp`, then write `temp` into the final hole. -/
def shiftIns (arr : List Str) (temp : Str) (j gap : Nat) : List Str :=
  if 0 < gap ∧ gap ≤ j ∧ temp < idx arr (j - gap) then
    shiftIns (arr.set j (idx arr (j - gap))) temp (j - gap) gap
  else arr.set j temp
termination_by j
decreasing_by omega

/-- The outer `for i in range(gap, n)` of a gapped insertion pass: lift
`temp = arr[i]` out and run the inner loop with the hole at `i`. -/
def gapPass (arr : List Str) (gap i n : Nat) : List Str :=
  if i < n then gapPass (shiftIns arr (idx arr i) i gap) gap (i + 1) n
  else arr
termination_by n - i
decreasing_by omega

/-! ## sorting/insertion.py -/

namespace insertion

/-- `insertion.sort`: copy, then the insertion loop `for i in range(1, n)`,
which is the gapped pass at gap 1. -/
def sort (data : List Str) : List Str := gapPass data 1 1 data.length

end insertion

/-! ## sorting/shell.py -/

namespace shell

/-- The hard-coded gap table of `shell.py`. -/
def gaps : List Nat := [1, 4, 10, 23, 57, 132, 301, 701, 1750]

/-- `while gap_index >= 0 and gaps[gap_index] >= n: gap_index -= 1`.  The
argument and result track `gap_index + 1`, so `0` encodes Python's `-1`. -/
def findGapIndex (n : Nat) : Nat → Nat
  | 0 => 0
  | k + 1 => if n ≤ gaps.getD k 0 then findGapIndex n k else k + 1

/-- `while gap_index >= 0:` run one gapped insertion pass per remaining gap,
largest first.  The argument tracks `gap_index + 1`. -/
def gapLoop (arr : List Str) (n : Nat) : Nat → List Str
  | 0 => arr
  | k + 1 => gapLoop (gapPass arr (gaps.getD k 0) (gaps.getD k 0) n) n k

/-- `shell.sort`: copy, find the largest gap below `n`, then run the
diminishing-gap passes. -/
def sort (data : List Str) : List Str :=
  gapLoop data data.length (findGapIndex data.length gaps.length)

end shell

/-! ## sorting/bubble.py -/

namespace bubble

/-- The inner `for j in range(0, stop)` walk of `bubble.py`: compare each
adjacent pair left to right and swap it when out of order; the head of the
list is the cell at the current position `j`.  Returns the walked list and
the `swapped` flag. -/
def pass : List Str → Nat → List Str × Bool
  | x :: y :: rest, b + 1 =>
    if y < x then
      (y :: (pass (x :: rest) b).1, true)
    else
      (x :: (pass (y :: rest) b).1, (pass (y :: rest) b).2)
  | l, _ => (l, false)

/-- `for i in range(n)` with the early-exit `swapped` check; the inner pass
stops before the `i` already-placed rear elements. -/
def loop (arr : List Str) (n i : Nat) : List Str :=
  if i < n then
    if (pass arr (n - i - 1)).2 then loop (pass arr (n - i - 1)).1 n (i + 1)
    else (pass arr (n - i - 1)).1
  else arr
termination_by n - i
decreasing_by omega

/-- `bubble.sort`: copy, then the two nested loops. -/
def sort (data : List Str) : List Str := loop data data.length 0

end bubble

/-! ## sorting/selection.py -/

namespace selection

/-- `for j in range(i+1, n): if result[j] < result[min_idx]: min_idx = j`. -/
def findMin (arr : List Str) (n j minIdx : Nat) : Nat :=
  if j < n then
    findMin arr n (j + 1) (if idx arr j < idx arr minIdx then j else minIdx)
  else minIdx
termination_by n - j
decreasing_by omega

/-- `for i in range(n)`: find the minimum of the unsorted tail and swap it
into position `i`. -/
def loop (arr : List Str) (n i : Nat) : List Str :=
  if i < n then loop (lswap arr i (findMin arr n (i + 1) i)) n (i + 1)
  else arr
termination_by n - i
decreasing_by omega

/-- `selection.sort`: copy, then the selection loop. -/
def sort (data : List Str) : List Str := loop data data.length 0

end selection

/-! ## sorting/heap.py -/

namespace heap

/-- The `largest` computed by `_heapify`: start from the root `i`, promote
the left child if it is larger, then the right child if it is larger than
the current largest. -/
def largest (arr : List Str) (n i : Nat) : Nat :=
  let l1 := if 2 * i + 1 < n ∧ idx arr i < idx arr (2 * i + 1) then 2 * i + 1 else i
  if 2 * i + 2 < n ∧ idx arr l1 < idx arr (2 * i + 2) then 2 * i + 2 else l1

/-- When `_heapify` recurses, the promoted child index is strictly below `n`
and strictly above `i` (needed for termination of `heapify`). -/
theorem largest_lt (arr : List Str) (n i : Nat) (h : largest arr n i ≠ i) :
    i < largest arr n i ∧ largest arr n i < n := by
  unfold largest at *
  dsimp only at *
  split_ifs at * <;> omega

/-- `_heapify`: if a child is larger than the root of the subtree, swap it up
and continue sifting down from the promoted position. -/
def heapify (arr : List Str) (n i : Nat) : List Str :=
  if h : largest arr n i ≠ i then
    heapify (lswap arr i (largest arr n i)) n (largest arr n i)
  else arr
termination_by n - i
decreasing_by
  have := largest_lt arr n i h
  omega

/-- `for i in range(n // 2 - 1, -1, -1)`: build the max-heap bottom-up.  The
argument tracks `i + 1`, so `0` encodes Python's `-1`. -/
def build (arr : List Str) (n : Nat) : Nat → List Str
  | 0 => arr
  | k + 1 => build (heapify arr n k) n k

/-- `for i in range(n - 1, 0, -1)`: swap the maximum to the end and heapify
the reduced heap. -/
def extract (arr : List Str) : Nat → List Str
  | 0 => arr
  | i + 1 => extract (heapify (lswap arr 0 (i + 1)) (i + 1) 0) i

/-- `heap.sort`: copy, build a max-heap, then extract maxima. -/
def sort (data : List Str) : List Str :=
  extract (build data data.length (data.length / 2)) (data.length - 1)

end heap

/-! ## sorting/quick.py -/

namespace quick

/-- `for j in range(low, high)` of `_partition`: grow the `<= pivot` zone.
`i1` tracks Python's `i + 1` (the index of the first element after the
zone), so the source's `i += 1; swap(arr[i], arr[j])` becomes a swap at
`i1` followed by incrementing `i1`. -/
def partLoop (arr : List Str) (pivot : Str) (i1 j high : Nat) : List Str × Nat :=
  if j < high then
    if idx arr j ≤ pivot then partLoop (lswap arr i1 j) pivot (i1 + 1) (j + 1) high
    else partLoop arr pivot i1 (j + 1) high
  else (arr, i1)
termination_by high - j
decreasing_by all_goals omega

/-- The zone boundary returned by the partition loop stays within
`[i1, high]` (needed for termination of `qsortLoop`). -/
theorem partLoop_snd_bounds (arr : List Str) (pivot : Str) (i1 j high : Nat)
    (h1 : i1 ≤ j) (h2 : j ≤ high) :
    i1 ≤ (partLoop arr pivot i1 j high).2 ∧ (partLoop arr pivot i1 j high).2 ≤ high := by
  unfold partLoop
  split
  · split
    · have := partLoop_snd_bounds (lswap arr i1 j) pivot (i1 + 1) (j + 1) high (by omega) (by omega)
      omega
    · have := partLoop_snd_bounds arr pivot i1 (j + 1) high (by omega) (by omega)
      omega
  · omega
termination_by high - j
decreasing_by all_goals omega

/-- `_partition`, with the call `random.randint(low, high)` supplied by a
pivot-choice oracle: `randint(low, high)` returns `low + k` for some
`k <= high - low`, which the clamp `low + choose low high % (high + 1 - low)`
ranges over exactly.  The chosen pivot is swapped to `high`, the zone loop is
run, and the pivot is swapped back to the boundary. -/
def partition (choose : Nat → Nat → Nat) (arr : List Str) (low high : Nat) :
    List Str × Nat :=
  let arr1 := lswap arr (low + choose low high % (high + 1 - low)) high
  let t := partLoop arr1 (idx arr1 high) low low high
  (lswap t.1 t.2 high, t.2)

/-- The pivot position returned by `_partition` lies in `[low, high]`. -/
theorem partition_snd_bounds (choose : Nat → Nat → Nat) (arr : List Str)
    (low high : Nat) (h : low ≤ high) :
    low ≤ (partition choose arr low high).2 ∧ (partition choose arr low high).2 ≤ high := by
  unfold partition
  dsimp only
  exact partLoop_snd_bounds _ _ low low high le_rfl h

/-- `_quicksort`: partition, then recurse on both sides of the pivot.  The
source works with Python ints, where the initial `high = len - 1` and the
recursive `pivot - 1` can be `-1`; truncated `Nat` subtraction gives the
same control flow because the guard `low < high` fails in exactly the same
cases. -/
def qsortLoop (choose : Nat → Nat → Nat) (arr : List Str) (low high : Nat) :
    List Str :=
  if h : low < high then
    qsortLoop choose
      (qsortLoop choose (partition choose arr low high).1 low
        ((partition choose arr low high).2 - 1))
      ((partition choose arr low high).2 + 1) high
  else arr
termination_by high - low
decreasing_by
  · have := partition_snd_bounds choose arr low high (by omega)
    omega
  · have := partition_snd_bounds choose arr low high (by omega)
    omega

/-- `quick.sort`: copy, then `_quicksort(result, 0, len(result) - 1)`.  The
stream of `random.randint` draws is supplied by the `choose` oracle; each
recursive call site has a distinct `(low, high)` pair, so an oracle indexed
by the pair loses no generality. -/
def sort (choose : Nat → Nat → Nat) (data : List Str) : List Str :=
  qsortLoop choose data 0 (data.length - 1)

end quick

/-! ## sorting/counting.py -/

namespace counting

/-- `if key not in buckets: buckets[key] = []` followed by
`buckets[key].append(s)`, on an insertion-ordered association list (Python
dicts preserve insertion order). -/
def addToBucket : List (Str × List Str) → Str → Str → List (Str × List Str)
  | [], key, s => [(key, [s])]
  | (k, b) :: rest, key, s =>
    if k = key then (k, b ++ [s]) :: rest else (k, b) :: addToBucket rest key s

/-- `for s in result:` group the strings by `s[0] if s else ""`; both cases
are the one-character prefix `s.take 1`. -/
def buildBuckets (data : List Str) : List (Str × List Str) :=
  data.foldl (fun bs s => addToBucket bs (s.take 1) s) []

/-- Reading `buckets[key]` from the association list. -/
def lookupBucket : List (Str × List Str) → Str → List Str
  | [], _ => []
  | (k, b) :: rest, key => if k = key then b else lookupBucket rest key

/-- `counting.sort`: group by first character, sort the keys, then emit each
bucket sorted, in key order. -/
def sort (data : List Str) : List Str :=
  if data.isEmpty then data
  else
    (pySorted strLe ((buildBuckets data).map Prod.fst)).foldl
      (fun acc key => acc ++ pySorted strLe (lookupBucket (buildBuckets data) key)) []

end counting

/-! ## sorting/bucket.py -/

/-- Python's `str.isalpha` on the ASCII range.  `bucket.py` computes a bucket
index only for letters; for non-ASCII letters the computed index would fall
outside the 27 buckets, and the inputs considered here are ASCII. -/
def pyIsAlphaAscii (c : Char) : Bool :=
  (decide ('a' ≤ c) && decide (c ≤ 'z')) || (decide ('A' ≤ c) && decide (c ≤ 'Z'))

/-- Python's `str.lower` on the ASCII range. -/
def pyLowerAscii (c : Char) : Char :=
  if 'A' ≤ c ∧ c ≤ 'Z' then Char.ofNat (c.toNat + 32) else c

namespace bucket

/-- `buckets[index].append(item)`. -/
def appendAt (bs : List (List Str)) (i : Nat) (s : Str) : List (List Str) :=
  bs.set i (bs.getD i [] ++ [s])

/-- One step of the distribution loop: items starting with a letter go to the
bucket of their lower-cased first letter, everything else to bucket 26. -/
def distribute (bs : List (List Str)) (item : Str) : List (List Str) :=
  match item with
  | [] => appendAt bs 26 item
  | c :: _ =>
    if pyIsAlphaAscii c then appendAt bs ((pyLowerAscii c).toNat - 'a'.toNat) item
    else appendAt bs 26 item

/-- The `_insertion_sort` helper of `bucket.py`: textually the loop of
`insertion.py`, i.e. the gap-1 insertion pass. -/
def insertionSortAux (arr : List Str) : List Str := gapPass arr 1 1 arr.length

/-- `bucket.sort`: distribute into 27 buckets by (case-folded) first letter,
insertion-sort each bucket, concatenate (`result.clear()` + `extend`). -/
def sort (data : List Str) : List Str :=
  if data.length ≤ 1 then data
  else
    (((data.foldl distribute (List.replicate 27 [])).map insertionSortAux).foldl
      (· ++ ·) [])

end bucket

/-! ## sorting/radix.py -/

/-- `ord` of the character of a padded string at `pos` (always in range for
the embedded code; the pad character is the junk value). -/
def ordAt (s : Str) (pos : Nat) : Nat := (s.getD pos ' ').toNat

namespace radix

/-- `s.ljust(max_len)`: pad with spaces on the right. -/
def pad (s : Str) (m : Nat) : Str := s ++ List.replicate (m - s.length) ' '

/-- `count[ord(item[pos])] += 1` — the `IndexError` site: the count array has
256 cells, so a code point of 256 or more raises. -/
def bumpCount (count : List Nat) (c : Nat) : Option (List Nat) :=
  if c < count.length then some (count.set c (count.getD c 0 + 1)) else none

/-- The first loop of a pass: count occurrences of each character at `pos`. -/
def countPhase (padded : List (Str × Nat)) (pos : Nat) : Option (List Nat) :=
  padded.foldlM (fun count it => bumpCount count (ordAt it.1 pos)) (List.replicate 256 0)

/-- `for i in range(1, 256): count[i] += count[i-1]`. -/
def prefixPhase (count : List Nat) (i : Nat) : List Nat :=
  if i < 256 then prefixPhase (count.set i (count.getD i 0 + count.getD (i - 1) 0)) (i + 1)
  else count
termination_by 256 - i
decreasing_by omega

/-- The placement loop `for i in range(len(padded) - 1, -1, -1)`: the first
argument is `padded` reversed, so its head is the item placed first.  The
output array starts as `None` placeholders. -/
def placePhase (pos : Nat) :
    List (Str × Nat) → List Nat → List (Option (Str × Nat)) →
      List (Option (Str × Nat)) × List Nat
  | [], count, output => (output, count)
  | it :: rev, count, output =>
    placePhase pos rev (count.set (ordAt it.1 pos) (count.getD (ordAt it.1 pos) 0 - 1))
      (output.set (count.getD (ordAt it.1 pos) 0 - 1) (some it))

/-- Recover a list of filled cells; a leftover `None` placeholder would make
the next pass raise on `None`, which we model as failure. -/
def desome : List (Option α) → Option (List α)
  | [] => some []
  | none :: _ => none
  | some a :: rest => (desome rest).map (a :: ·)

/-- One counting-sort pass over character position `pos`. -/
def passAt (padded : List (Str × Nat)) (pos : Nat) : Option (List (Str × Nat)) :=
  (countPhase padded pos).bind fun count0 =>
    desome (placePhase pos padded.reverse (prefixPhase count0 1)
      (List.replicate padded.length none)).1

/-- `for pos in range(max_len - 1, -1, -1)`: the argument tracks `pos + 1`. -/
def posLoop (padded : List (Str × Nat)) : Nat → Option (List (Str × Nat))
  | 0 => some padded
  | p + 1 => (passAt padded p).bind fun padded' => posLoop padded' p

/-- `radix.sort`: pad all strings to the maximum length, run one stable
counting-sort pass per character position from the right, and read the
original strings back through the stored indices.  `none` models the
uncaught `IndexError` raised on a code point outside the 256-cell count
array. -/
def sort (data : List Str) : Option (List Str) :=
  let maxLen := data.foldl (fun m s => max m s.length) 0
  (posLoop ((data.enum).map fun it => (pad it.2 maxLen, it.1)) maxLen).map
    fun padded => padded.map fun it => data.getD it.2 []

end radix

/-! ## benchmark.py -/

/-- The record produced by `benchmark_algorithm`: the dictionary
`{"algorithm": ..., "time": ..., "sorted_data": ...}`.  Elapsed wall time is
an input to the model (a rational), not something a pure embedding can
measure. -/
structure BenchmarkResult where
  algorithm : Str
  time : ℚ
  sorted_data : List Str
deriving DecidableEq

instance : Inhabited BenchmarkResult := ⟨⟨[], 0, []⟩⟩

/-- How an embedded call can abort: `systemExit` models `sys.exit(1)`
(a `SystemExit`, which `except Exception` does not catch), `exc` models an
ordinary `Exception` raised by a strategy. -/
inductive PyErr
  | systemExit
  | exc
deriving DecidableEq

/-- A loaded strategy entry point; `none` models an exception raised during
execution. -/
abbrev Strategy := List Str → Option (List Str)

/-- The universe of importable `sorting.<name>` modules exposing `sort`,
modelled as a partial map from names to entry points (the counterpart of the
filesystem that `importlib` consults). -/
abbrev Registry := Str → Option Strategy

/-- `load_algorithm`: a missing module (`ImportError`) or a module without a
`sort` attribute (`AttributeError`) is reported and then `sys.exit(1)` runs. -/
def load_algorithm (registry : Registry) (name : Str) : Except PyErr Strategy :=
  match registry name with
  | some f => .ok f
  | none => .error .systemExit

/-- `benchmark_algorithm`: copy the data (the copy is the identity on values
here; the aliasing argument is made in the store model below), load the
strategy, run it on the copy, and package name, elapsed time and output. -/
def benchmark_algorithm (registry : Registry) (tm : Str → ℚ) (name : Str)
    (data : List Str) : Except PyErr BenchmarkResult :=
  match load_algorithm registry name with
  | .error e => .error e
  | .ok f =>
    match f data with
    | none => .error .exc
    | some out => .ok ⟨name, tm name, out⟩

/-- `run_all_benchmarks`: `try: ... except Exception:` around each
`benchmark_algorithm` call.  A strategy exception is caught and the loop
continues; `SystemExit` is not an `Exception`, so it propagates and kills the
whole run. -/
def run_all_benchmarks (registry : Registry) (tm : Str → ℚ) (data : List Str) :
    List Str → Except PyErr (List BenchmarkResult)
  | [] => .ok []
  | name :: rest =>
    match benchmark_algorithm registry tm name data with
    | .ok r => (run_all_benchmarks registry tm data rest).map (r :: ·)
    | .error .exc => run_all_benchmarks registry tm data rest
    | .error .systemExit => .error .systemExit

/-- The registry of the ten bundled modules under `sorting/`.  `quick.sort`
is registered with a fixed pivot oracle (its output is proved independent of
the oracle); `radix.sort` is the one bundled entry point that can raise. -/
def bundledRegistry : Registry := fun name =>
  if name = "bubble".toList then some (fun d => some (bubble.sort d))
  else if name = "bucket".toList then some (fun d => some (bucket.sort d))
  else if name = "counting".toList then some (fun d => some (counting.sort d))
  else if name = "heap".toList then some (fun d => some (heap.sort d))
  else if name = "insertion".toList then some (fun d => some (insertion.sort d))
  else if name = "merge".toList then some (fun d => some (merge.sort d))
  else if name = "quick".toList then some (fun d => some (quick.sort (fun _ _ => 0) d))
  else if name = "radix".toList then some (fun d => radix.sort d)
  else if name = "selection".toList then some (fun d => some (selection.sort d))
  else if name = "shell".toList then some (fun d => some (shell.sort d))
  else none

/-- The loop body of `verify_sorting`: warn (mismatching algorithm,
reference algorithm) for each later result whose output differs from the
reference. -/
def warnLoop (ref : List Str) (refAlg : Str) : List BenchmarkResult → List (Str × Str)
  | [] => []
  | r :: rest =>
    if r.sorted_data ≠ ref then (r.algorithm, refAlg) :: warnLoop ref refAlg rest
    else warnLoop ref refAlg rest

/-- `verify_sorting`: with fewer than two results return immediately;
otherwise compare every later output against the first result's output. -/
def verify_sorting (results : List BenchmarkResult) : List (Str × Str) :=
  if results.length < 2 then []
  else
    match results with
    | [] => []
    | r0 :: rest => warnLoop r0.sorted_data r0.algorithm rest

/-- The "Relative Performance" cell of the comparison table. -/
inductive Perf
  | fastest
  | slowest
  | ratio (q : ℚ)
deriving DecidableEq

/-- One rendered row of the comparison table. -/
structure TableRow where
  algorithm : Str
  time : ℚ
  perf : Perf
deriving DecidableEq

instance : Inhabited TableRow := ⟨⟨[], 0, Perf.fastest⟩⟩

/-- The comparison table: ranked rows plus the two summary statistics. -/
structure CompTable where
  rows : List TableRow
  avg : ℚ
  median : ℚ
deriving DecidableEq

/-- The key comparison `sorted(results, key=lambda x: x["time"])` uses. -/
def resLe (a b : BenchmarkResult) : Bool := decide (a.time ≤ b.time)

/-- `statistics.mean`. -/
def pyMean (ts : List ℚ) : ℚ := ts.sum / ts.length

/-- `statistics.median`: sort, take the middle value, or the average of the
two middle values for an even count. -/
def pyMedian (ts : List ℚ) : ℚ :=
  if ts.length % 2 = 1 then (pySorted (fun a b : ℚ => decide (a ≤ b)) ts).getD (ts.length / 2) 0
  else
    ((pySorted (fun a b : ℚ => decide (a ≤ b)) ts).getD (ts.length / 2 - 1) 0 +
      (pySorted (fun a b : ℚ => decide (a ≤ b)) ts).getD (ts.length / 2) 0) / 2

/-- `display_comparison_table`: `none` models the early "No results to
display" return; otherwise sort by elapsed time, tag the first row as
fastest and the last as slowest, give every other row its slowdown ratio
against the fastest, and append mean and median. -/
def display_comparison_table (results : List BenchmarkResult) : Option CompTable :=
  if results.isEmpty then none
  else
    some
      { rows :=
          (pySorted resLe results).enum.map fun p =>
            { algorithm := p.2.algorithm
              time := p.2.time
              perf :=
                if p.1 = 0 then Perf.fastest
                else if p.1 = (pySorted resLe results).length - 1 then Perf.slowest
                else Perf.ratio (p.2.time / ((pySorted resLe results).headD default).time) }
        avg := pyMean (results.map (·.time))
        median := pyMedian (results.map (·.time)) }

/-- `Path.stem` for a `*.py` filename. -/
def pyStem (f : Str) : Str := f.take (f.length - 3)

/-- The loop of `get_available_algorithms` over the directory listing:
`glob("*.py")` keeps the `.py` entries in filesystem order, and the loop
appends the stem of every file other than `__init__.py` that does not start
with `_`. -/
def availLoop : List Str → List Str
  | [] => []
  | f :: rest =>
    if f.drop (f.length - 3) = ".py".toList then
      if f ≠ "__init__.py".toList ∧ f.take 1 ≠ ['_'] then pyStem f :: availLoop rest
      else availLoop rest
    else availLoop rest

/-- `get_available_algorithms`: `None` as the listing models a missing
`sorting` directory, which is reported and then `sys.exit(1)` runs. -/
def get_available_algorithms (listing : Option (List Str)) : Except PyErr (List Str) :=
  match listing with
  | none => .error .systemExit
  | some files => .ok (availLoop files)

/-- A flat model of the files written under the output directory: newest
write first; `fsRead` returns the lines of the most recent write to a path. -/
abbrev FS := List (Str × List Str)

/-- The lines stored at `path`. -/
def fsRead (fs : FS) (path : Str) : Option (List Str) :=
  match fs with
  | [] => none
  | (p, ls) :: rest => if p = path then some ls else fsRead rest path

/-- `write_file`: ensure `sorted_output/` exists, then write one line per
element, in order.  `writeOk` models whether the OS write succeeds; on
failure the error is reported (second component `true`) and the function
still returns, so the run continues. -/
def write_file (writeOk : Bool) (fs : FS) (filename : Str) (data : List Str) :
    FS × Bool :=
  if writeOk then ((("sorted_output/".toList ++ filename), data) :: fs, false)
  else (fs, true)

/-- `os.path.basename`. -/
def pyBasename (p : Str) : Str := (p.reverse.takeWhile (· ≠ '/')).reverse

/-- The saving step of `main`: when `-o` is given and there are results,
write either `<algorithm>_<basename>` (single `-a` selection, its result is
`results[0]`) or `fastest_<basename>` from the minimum-elapsed result
(`min` returns the first minimum). -/
def saveOutput (writeOk : Bool) (fs : FS) (outputFlag : Bool) (algOpt : Option Str)
    (file : Str) (results : List BenchmarkResult) : FS × Bool :=
  if outputFlag ∧ results ≠ [] then
    match algOpt with
    | some alg =>
      write_file writeOk fs (alg ++ ['_'] ++ pyBasename file) (results.headD default).sorted_data
    | none =>
      write_file writeOk fs ("fastest_".toList ++ pyBasename file)
        (results.foldl (fun best r => if r.time < best.time then r else best)
          (results.headD default)).sorted_data
  else (fs, false)

/-! ## The store model of `benchmark_algorithm` (frame property)

Python lists are heap objects; `data.copy()` allocates a new one.  To state
that neither the harness nor a strategy mutates the caller's dataset, we
model the heap of string-lists explicitly: references are indices into a
store, allocation appends, and every in-place loop of a strategy acts on the
cell the strategy itself allocated. -/

/-- The heap of Python list-of-string objects. -/
abbrev Store := List (List Str)

/-- Dereference. -/
def readRef (σ : Store) (r : Nat) : List Str := σ.getD r []

/-- In-place update of the object behind `r`. -/
def writeRef (σ : Store) (r : Nat) (v : List Str) : Store := σ.set r v

/-- `list.copy()`: allocate a fresh cell holding the copied value. -/
def allocRef (σ : Store) (v : List Str) : Store × Nat := (σ ++ [v], σ.length)

/-- A strategy invocation in the store model: every bundled module starts
with `result = data.copy()` and its loops then mutate only `result`; `core`
is the net effect of those loops on the owned cell (for `bubble.py`,
`bubble.sort`). -/
def stratM (core : List Str → List Str) (σ : Store) (arg : Nat) : Store × List Str :=
  let t := allocRef σ (readRef σ arg)
  (writeRef t.1 t.2 (core (readRef t.1 t.2)),
    readRef (writeRef t.1 t.2 (core (readRef t.1 t.2))) t.2)

/-- `benchmark_algorithm` in the store model: `data_copy = data.copy()`, then
the strategy runs on the copy. -/
def benchmark_algorithmM (core : List Str → List Str) (σ : Store) (dataRef : Nat) :
    Store × List Str :=
  stratM core (allocRef σ (readRef σ dataRef)).1 (allocRef σ (readRef σ dataRef)).2

/-- `run_all_benchmarks` in the store model: one harness invocation per
requested strategy, all against the same dataset reference. -/
def run_all_benchmarksM (cores : List (List Str → List Str)) (σ : Store)
    (dataRef : Nat) : Store :=
  cores.foldl (fun σ c => (benchmark_algorithmM c σ dataRef).1) σ

/-- The filled cells of a placement array (used to reason about
`radix.placePhase`). -/
def somes (l : List (Option α)) : List α := l.filterMap id

/-! ## Infrastructure: index reads, swaps and permutations -/

theorem idx_set_ne {arr : List Str} {i k : Nat} (x : Str) (h : i ≠ k) :
    idx (arr.set i x) k = idx arr k := by
  simp [idx, List.getD_eq_getElem?_getD, List.getElem?_set_ne h]

theorem idx_set_self {arr : List Str} {i : Nat} (x : Str) (h : i < arr.length) :
    idx (arr.set i x) i = x := by
  simp [idx, List.getD_eq_getElem?_getD, List.getElem?_set_self h]

theorem idx_eq_getElem {arr : List Str} {i : Nat} (h : i < arr.length) :
    idx arr i = arr[i] := List.getD_eq_getElem arr [] h

theorem idx_of_length_le {arr : List Str} {i : Nat} (h : arr.length ≤ i) :
    idx arr i = [] := by
  simp [idx, List.getD_eq_getElem?_getD, List.getElem?_eq_none h]

theorem length_lswap (arr : List Str) (i j : Nat) :
    (lswap arr i j).length = arr.length := by
  simp [lswap]

theorem count_set_succ [inst : BEq Str] [LawfulBEq Str] (arr : List Str) (i : Nat)
    (x b : Str) (h : i < arr.length) :
    (arr.set i x).count b + (if idx arr i = b then 1 else 0) =
      arr.count b + (if x = b then 1 else 0) := by
  have hc := List.count_set x b arr i h
  simp only [beq_iff_eq] at hc
  rw [idx_eq_getElem h]
  by_cases h1 : arr[i] = b
  · have hpos : 0 < arr.count b := List.count_pos_iff.mpr (h1 ▸ arr.getElem_mem h)
    by_cases h2 : x = b <;> simp only [h1, h2, if_true, if_false] at hc ⊢ <;>
      simp at hc ⊢ <;> omega
  · by_cases h2 : x = b <;> simp only [h1, h2, if_true, if_false] at hc ⊢ <;>
      simp [h1, h2] at hc ⊢ <;> omega

theorem set_idx_self (arr : List Str) (i : Nat) (h : i < arr.length) :
    arr.set i (idx arr i) = arr := by
  apply List.ext_getElem?
  intro n
  by_cases hn : i = n
  · subst hn
    rw [List.getElem?_set_self h, idx_eq_getElem h, List.getElem?_eq_getElem h]
  · rw [List.getElem?_set_ne hn]

theorem lswap_perm (arr : List Str) (i j : Nat) (hi : i < arr.length)
    (hj : j < arr.length) : (lswap arr i j).Perm arr := by
  by_cases hij : i = j
  · subst hij
    unfold lswap
    rw [set_idx_self arr i hi, set_idx_self arr i hi]
  · rw [List.perm_iff_count]
    intro b
    have hj' : j < (arr.set i (idx arr j)).length := by simpa using hj
    have h1 := @count_set_succ instBEqOfDecidableEq inferInstance arr i (idx arr j) b hi
    have h2 := @count_set_succ instBEqOfDecidableEq inferInstance (arr.set i (idx arr j)) j
      (idx arr i) b hj'
    rw [idx_set_ne _ hij] at h2
    unfold lswap
    split_ifs at h1 h2 <;> omega

theorem idx_lswap_fst {arr : List Str} {i j : Nat} (hi : i < arr.length)
    (hj : j < arr.length) : idx (lswap arr i j) i = idx arr j := by
  unfold lswap
  by_cases hij : i = j
  · subst hij; exact idx_set_self _ (by simpa using hi)
  · rw [idx_set_ne _ (Ne.symm hij), idx_set_self _ hi]

theorem idx_lswap_snd {arr : List Str} {i j : Nat} (hj : j < arr.length) :
    idx (lswap arr i j) j = idx arr i := by
  unfold lswap
  exact idx_set_self _ (by simpa using hj)

theorem idx_lswap_other {arr : List Str} {i j k : Nat} (h1 : k ≠ i) (h2 : k ≠ j) :
    idx (lswap arr i j) k = idx arr k := by
  unfold lswap
  rw [idx_set_ne _ (Ne.symm h2), idx_set_ne _ (Ne.symm h1)]

/-- A permutation that agrees with the original on a (decomposed) region is a
permutation on the complementary region. -/
theorem perm_take_of_perm_of_drop_eq {l₁ l₂ : List Str} (hp : l₁.Perm l₂)
    (k : Nat) (hd : l₁.drop k = l₂.drop k) : (l₁.take k).Perm (l₂.take k) := by
  have h1 := List.take_append_drop k l₁
  apply (List.perm_append_right_iff (l₁.drop k)).mp
  have h2' : l₂.take k ++ l₁.drop k = l₂ := by rw [hd, List.take_append_drop]
  rw [h1, h2']
  exact hp

/-! ## merge.py: correctness -/

theorem mergeLoop_perm (l r : List Str) : (merge.mergeLoop l r).Perm (l ++ r) := by
  induction l, r using merge.mergeLoop.induct with
  | case1 r => simp [merge.mergeLoop]
  | case2 l h =>
    cases l with
    | nil => exact absurd rfl h
    | cons a l => simp [merge.mergeLoop]
  | case3 x l y r hle ih =>
    rw [merge.mergeLoop, if_pos hle]
    exact (ih.cons x)
  | case4 x l y r hle ih =>
    rw [merge.mergeLoop, if_neg hle]
    exact ((ih.cons y).trans List.perm_middle.symm)

theorem mergeLoop_sorted {l r : List Str} (hl : List.Sorted (· ≤ ·) l)
    (hr : List.Sorted (· ≤ ·) r) : List.Sorted (· ≤ ·) (merge.mergeLoop l r) := by
  induction l, r using merge.mergeLoop.induct with
  | case1 r => simpa [merge.mergeLoop] using hr
  | case2 l h =>
    cases l with
    | nil => exact absurd rfl h
    | cons a l => simpa [merge.mergeLoop] using hl
  | case3 x l y r hle ih =>
    rw [merge.mergeLoop, if_pos hle]
    rw [List.sorted_cons] at hl ⊢
    refine ⟨?_, ih hl.2 hr⟩
    intro b hb
    have hb' : b ∈ l ++ y :: r := (mergeLoop_perm l (y :: r)).subset hb
    rcases List.mem_append.mp hb' with h | h
    · exact hl.1 b h
    · rcases List.mem_cons.mp h with h | h
      · exact h ▸ hle
      · rw [List.sorted_cons] at hr
        exact le_trans hle (hr.1 b h)
  | case4 x l y r hle ih =>
    rw [merge.mergeLoop, if_neg hle]
    rw [List.sorted_cons] at hr ⊢
    refine ⟨?_, ih hl hr.2⟩
    intro b hb
    have hyx : y ≤ x := le_of_not_le hle
    have hb' : b ∈ (x :: l) ++ r := (mergeLoop_perm (x :: l) r).subset hb
    rcases List.mem_append.mp hb' with h | h
    · rcases List.mem_cons.mp h with h | h
      · exact h ▸ hyx
      · rw [List.sorted_cons] at hl
        exact le_trans hyx (hl.1 b h)
    · exact hr.1 b h

theorem merge_sort_perm (data : List Str) : (merge.sort data).Perm data := by
  induction data using merge.sort.induct with
  | case1 data h ih1 ih2 =>
    rw [merge.sort, dif_pos h]
    refine ((mergeLoop_perm _ _).trans ?_)
    refine ((ih1.append ih2).trans ?_)
    rw [List.take_append_drop]
  | case2 data h => rw [merge.sort, dif_neg h]

theorem merge_sort_sorted (data : List Str) : List.Sorted (· ≤ ·) (merge.sort data) := by
  induction data using merge.sort.induct with
  | case1 data h ih1 ih2 =>
    rw [merge.sort, dif_pos h]
    exact mergeLoop_sorted ih1 ih2
  | case2 data h =>
    rw [merge.sort, dif_neg h]
    rcases data with _ | ⟨a, _ | ⟨b, l⟩⟩
    · simp
    · simp
    · exfalso
      simp at h

/-! ## The gapped insertion pass: permutation, frame and (at gap 1)
sortedness -/

theorem idx_congr_of_getElem? {l₁ l₂ : List Str} {m : Nat} (h : l₁[m]? = l₂[m]?) :
    idx l₁ m = idx l₂ m := by
  simp [idx, List.getD_eq_getElem?_getD, h]

theorem take_set_of_le (l : List Str) (i k : Nat) (x : Str) (h : k ≤ i) :
    (l.set i x).take k = l.take k := by
  apply List.ext_getElem?
  intro m
  rw [List.getElem?_take, List.getElem?_take]
  by_cases hm : m < k
  · rw [if_pos hm, if_pos hm, List.getElem?_set_ne (by omega)]
  · rw [if_neg hm, if_neg hm]

theorem drop_set_of_lt (l : List Str) (i k : Nat) (x : Str) (h : i < k) :
    (l.set i x).drop k = l.drop k := by
  apply List.ext_getElem?
  intro m
  rw [List.getElem?_drop, List.getElem?_drop, List.getElem?_set_ne (by omega)]

theorem sorted_snoc {l : List Str} {a : Str} :
    List.Sorted (· ≤ ·) (l ++ [a]) ↔ List.Sorted (· ≤ ·) l ∧ ∀ x ∈ l, x ≤ a := by
  unfold List.Sorted
  rw [List.pairwise_append]
  constructor
  · intro h
    exact ⟨h.1, fun x hx => h.2.2 x hx a (by simp)⟩
  · intro h
    refine ⟨h.1, List.pairwise_singleton _ _, fun x hx b hb => ?_⟩
    rw [List.mem_singleton] at hb
    subst hb
    exact h.2 x hx

theorem take_succ_of_lt {arr : List Str} {j : Nat} (h : j < arr.length) :
    arr.take (j + 1) = arr.take j ++ [arr[j]] := by
  rw [List.take_succ, List.getElem?_eq_getElem h]
  rfl

theorem sorted_take_le {arr : List Str} {j : Nat} (hj : j < arr.length)
    (hs : List.Sorted (· ≤ ·) (arr.take (j + 1))) :
    ∀ x ∈ arr.take j, x ≤ arr[j] := by
  rw [take_succ_of_lt hj, sorted_snoc] at hs
  exact hs.2

theorem sorted_take_mono {arr : List Str} {k j : Nat} (h : k ≤ j)
    (hs : List.Sorted (· ≤ ·) (arr.take j)) : List.Sorted (· ≤ ·) (arr.take k) := by
  have heq : arr.take k = (arr.take j).take k := by
    rw [List.take_take, Nat.min_eq_left h]
  rw [heq]
  exact List.Pairwise.sublist (List.take_sublist k (arr.take j)) hs

theorem shiftIns_length (arr : List Str) (temp : Str) (j gap : Nat) :
    (shiftIns arr temp j gap).length = arr.length := by
  induction arr, temp, j, gap using shiftIns.induct with
  | case1 arr temp j gap h ih =>
    rw [shiftIns, if_pos h]
    simpa using ih
  | case2 arr temp j gap h =>
    rw [shiftIns, if_neg h]
    simp

theorem shiftIns_getElem?_of_lt (arr : List Str) (temp : Str) (j gap : Nat) :
    ∀ m, j < m → (shiftIns arr temp j gap)[m]? = arr[m]? := by
  induction arr, temp, j, gap using shiftIns.induct with
  | case1 arr temp j gap h ih =>
    intro m hm
    rw [shiftIns, if_pos h]
    rw [ih m (by omega), List.getElem?_set_ne (by omega)]
  | case2 arr temp j gap h =>
    intro m hm
    rw [shiftIns, if_neg h, List.getElem?_set_ne (by omega)]

theorem shiftIns_drop (arr : List Str) (temp : Str) (j gap k : Nat) (h : j < k) :
    (shiftIns arr temp j gap).drop k = arr.drop k := by
  apply List.ext_getElem?
  intro m
  rw [List.getElem?_drop, List.getElem?_drop]
  exact shiftIns_getElem?_of_lt arr temp j gap (k + m) (by omega)

theorem shiftIns_perm (arr : List Str) (temp : Str) (j gap : Nat) (hj : j < arr.length) :
    (shiftIns arr temp j gap).Perm (arr.set j temp) := by
  induction arr, temp, j, gap using shiftIns.induct with
  | case1 arr temp j gap h ih =>
    rw [shiftIns, if_pos h]
    have hj' : j - gap < (arr.set j (idx arr (j - gap))).length := by
      rw [List.length_set]; omega
    refine (ih hj').trans ?_
    have key : (arr.set j (idx arr (j - gap))).set (j - gap) temp
        = lswap (arr.set j temp) j (j - gap) := by
      unfold lswap
      rw [idx_set_ne temp (by omega : j ≠ j - gap), idx_set_self temp hj, List.set_set]
    rw [key]
    exact lswap_perm _ _ _ (by rw [List.length_set]; omega) (by rw [List.length_set]; omega)
  | case2 arr temp j gap h =>
    rw [shiftIns, if_neg h]

/-- After the gap-1 inner loop with hole `j` on an array whose first `j`
cells are sorted, the first `j + 1` cells are sorted. -/
theorem shiftIns_one_take_sorted :
    ∀ (j : Nat) (arr : List Str) (temp : Str), j < arr.length →
      List.Sorted (· ≤ ·) (arr.take j) →
      List.Sorted (· ≤ ·) ((shiftIns arr temp j 1).take (j + 1)) := by
  intro j
  induction j using Nat.strong_induction_on with
  | _ j ih =>
    intro arr temp hj hs
    rw [shiftIns]
    by_cases h : 0 < 1 ∧ 1 ≤ j ∧ temp < idx arr (j - 1)
    · rw [if_pos h]
      obtain ⟨-, hj1, hlt⟩ := h
      have hj1' : j - 1 < j := by omega
      have hlen' : (arr.set j (idx arr (j - 1))).length = arr.length := by
        rw [List.length_set]
      have hpre : List.Sorted (· ≤ ·) ((arr.set j (idx arr (j - 1))).take (j - 1)) := by
        rw [take_set_of_le _ _ _ _ (by omega)]
        exact sorted_take_mono (by omega) hs
      have hres := ih (j - 1) hj1' (arr.set j (idx arr (j - 1))) temp (by omega) hpre
      -- abbreviations
      have hlenres : (shiftIns (arr.set j (idx arr (j - 1))) temp (j - 1) 1).length
          = arr.length := by rw [shiftIns_length, hlen']
      have hjres : j < (shiftIns (arr.set j (idx arr (j - 1))) temp (j - 1) 1).length := by
        omega
      rw [take_succ_of_lt hjres, sorted_snoc]
      have hj1succ : j - 1 + 1 = j := by omega
      rw [hj1succ] at hres
      refine ⟨hres, ?_⟩
      -- the cell at j holds the shifted arr[j-1], and everything before it is
      -- at most arr[j-1]
      have hcellq : (shiftIns (arr.set j (idx arr (j - 1))) temp (j - 1) 1)[j]?
          = (arr.set j (idx arr (j - 1)))[j]? := by
        exact shiftIns_getElem?_of_lt _ _ _ _ j (by omega)
      have hcell : (shiftIns (arr.set j (idx arr (j - 1))) temp (j - 1) 1)[j]
          = idx arr (j - 1) := by
        have h1 : idx (shiftIns (arr.set j (idx arr (j - 1))) temp (j - 1) 1) j
            = idx (arr.set j (idx arr (j - 1))) j := idx_congr_of_getElem? hcellq
        rw [idx_set_self _ hj] at h1
        rw [← idx_eq_getElem hjres, h1]
      rw [hcell]
      intro x hx
      -- membership: the first j cells are a permutation of
      -- (arr.take j).set (j-1) temp
      have hperm : ((shiftIns (arr.set j (idx arr (j - 1))) temp (j - 1) 1).take j).Perm
          ((arr.take j).set (j - 1) temp) := by
        have hp := shiftIns_perm (arr.set j (idx arr (j - 1))) temp (j - 1) 1
          (by omega)
        have hdropeq : (shiftIns (arr.set j (idx arr (j - 1))) temp (j - 1) 1).drop j
            = ((arr.set j (idx arr (j - 1))).set (j - 1) temp).drop j := by
          have e1 : (shiftIns (arr.set j (idx arr (j - 1))) temp (j - 1) 1).drop j
              = (arr.set j (idx arr (j - 1))).drop j :=
            shiftIns_drop _ _ _ _ _ (by omega)
          have e2 : ((arr.set j (idx arr (j - 1))).set (j - 1) temp).drop j
              = (arr.set j (idx arr (j - 1))).drop j :=
            drop_set_of_lt _ _ _ _ (by omega)
          rw [e1, e2]
        have := perm_take_of_perm_of_drop_eq hp j hdropeq
        rw [List.set_take] at this
        rw [take_set_of_le _ _ _ _ (le_refl j)] at this
        exact this
      have hx' : x ∈ (arr.take j).set (j - 1) temp := hperm.subset hx
      have hbound : ∀ y ∈ arr.take j, y ≤ idx arr (j - 1) := by
        intro y hy
        have hj1lt : j - 1 < arr.length := by omega
        rw [idx_eq_getElem hj1lt]
        have hsj : List.Sorted (· ≤ ·) (arr.take (j - 1 + 1)) := by
          rw [hj1succ]; exact hs
        have hyle := sorted_take_le hj1lt hsj
        -- y is in take j = take (j-1) ++ [arr[j-1]]
        rw [show j = j - 1 + 1 by omega, take_succ_of_lt hj1lt] at hy
        rcases List.mem_append.mp hy with h' | h'
        · exact hyle y h'
        · rw [List.mem_singleton] at h'
          exact le_of_eq h'
      rcases List.mem_or_eq_of_mem_set hx' with h' | h'
      · exact hbound x h'
      · subst h'
        exact le_of_lt hlt
    · rw [if_neg h]
      -- either j = 0 or arr[j-1] <= temp; the written prefix is
      -- arr.take j ++ [temp]
      have hjlen : j < (arr.set j temp).length := by rw [List.length_set]; exact hj
      rw [take_succ_of_lt hjlen, take_set_of_le _ _ _ _ (le_refl j), sorted_snoc]
      have hcell : (arr.set j temp)[j] = temp := by
        rw [← idx_eq_getElem hjlen, idx_set_self _ hj]
      rw [hcell]
      refine ⟨hs, ?_⟩
      intro x hx
      rcases Nat.eq_zero_or_pos j with hj0 | hjpos
      · subst hj0
        simp at hx
      · have hnlt : ¬ temp < idx arr (j - 1) := by
          intro hc
          exact h ⟨Nat.one_pos, by omega, hc⟩
        have hle : idx arr (j - 1) ≤ temp := le_of_not_lt hnlt
        have hj1lt : j - 1 < arr.length := by omega
        have hsj : List.Sorted (· ≤ ·) (arr.take (j - 1 + 1)) := by
          rw [show j - 1 + 1 = j by omega]; exact hs
        have hyle := sorted_take_le hj1lt hsj
        rw [show j = j - 1 + 1 by omega, take_succ_of_lt hj1lt] at hx
        rcases List.mem_append.mp hx with h' | h'
        · exact le_trans (hyle x h') (by rw [← idx_eq_getElem hj1lt]; exact hle)
        · rw [List.mem_singleton] at h'
          subst h'
          rw [← idx_eq_getElem hj1lt]
          exact hle

theorem gapPass_perm : ∀ (arr : List Str) (gap i n : Nat), n ≤ arr.length →
    (gapPass arr gap i n).Perm arr := by
  intro arr gap i n
  induction arr, gap, i, n using gapPass.induct with
  | case1 arr gap i n h ih =>
    intro hn
    rw [gapPass, if_pos h]
    have hi : i < arr.length := by omega
    have hlen : (shiftIns arr (idx arr i) i gap).length = arr.length :=
      shiftIns_length arr (idx arr i) i gap
    refine (ih (by omega)).trans ?_
    have := shiftIns_perm arr (idx arr i) i gap hi
    rw [set_idx_self arr i hi] at this
    exact this
  | case2 arr gap i n h =>
    intro _
    rw [gapPass, if_neg h]

theorem gapPass_length (arr : List Str) (gap i n : Nat) (h : n ≤ arr.length) :
    (gapPass arr gap i n).length = arr.length :=
  (gapPass_perm arr gap i n h).length_eq

/-- The gap-1 pass sorts any array whose prefix below the start index is
sorted (fuel-based strong induction on `arr.length - i`). -/
theorem gapPass_one_sorted_aux :
    ∀ (d : Nat) (arr : List Str) (i : Nat), arr.length - i ≤ d →
      List.Sorted (· ≤ ·) (arr.take i) →
      List.Sorted (· ≤ ·) (gapPass arr 1 i arr.length) := by
  intro d
  induction d with
  | zero =>
    intro arr i hd hs
    rw [gapPass, if_neg (by omega)]
    rw [List.take_of_length_le (by omega)] at hs
    exact hs
  | succ d ihd =>
    intro arr i hd hs
    by_cases h : i < arr.length
    · rw [gapPass, if_pos h]
      have hlen : (shiftIns arr (idx arr i) i 1).length = arr.length :=
        shiftIns_length arr (idx arr i) i 1
      have hsorted := shiftIns_one_take_sorted i arr (idx arr i) h hs
      have := ihd (shiftIns arr (idx arr i) i 1) (i + 1) (by omega) hsorted
      rw [hlen] at this
      exact this
    · rw [gapPass, if_neg h]
      rw [List.take_of_length_le (by omega)] at hs
      exact hs

theorem gapPass_one_sorted (arr : List Str) (i : Nat)
    (hs : List.Sorted (· ≤ ·) (arr.take i)) :
    List.Sorted (· ≤ ·) (gapPass arr 1 i arr.length) :=
  gapPass_one_sorted_aux arr.length arr i (by omega) hs

theorem sorted_take_one (arr : List Str) : List.Sorted (· ≤ ·) (arr.take 1) := by
  cases arr <;> simp

/-! ## insertion.py: correctness -/

theorem insertion_sort_perm (data : List Str) : (insertion.sort data).Perm data :=
  gapPass_perm data 1 1 data.length le_rfl

theorem insertion_sort_sorted (data : List Str) :
    List.Sorted (· ≤ ·) (insertion.sort data) :=
  gapPass_one_sorted data 1 (sorted_take_one data)

/-! ## shell.py: correctness -/

theorem sorted_of_length_le_one {l : List Str} (h : l.length ≤ 1) :
    List.Sorted (· ≤ ·) l := by
  match l with
  | [] => simp
  | [a] => simp
  | a :: b :: t => simp at h

theorem findGapIndex_eq_zero {n : Nat} :
    ∀ k, 1 ≤ k → shell.findGapIndex n k = 0 → n ≤ 1 := by
  intro k
  induction k with
  | zero => intro h; omega
  | succ k ihk =>
    intro _ h
    rw [shell.findGapIndex] at h
    by_cases hc : n ≤ shell.gaps.getD k 0
    · rw [if_pos hc] at h
      rcases Nat.eq_zero_or_pos k with h0 | hpos
      · subst h0
        have hg : shell.gaps.getD 0 0 = 1 := rfl
        omega
      · exact ihk hpos h
    · rw [if_neg hc] at h
      omega

theorem gapLoop_perm : ∀ (k : Nat) (arr : List Str) (n : Nat), n ≤ arr.length →
    (shell.gapLoop arr n k).Perm arr := by
  intro k
  induction k with
  | zero =>
    intro arr n h
    rw [shell.gapLoop]
  | succ k ihk =>
    intro arr n h
    rw [shell.gapLoop]
    have hp := gapPass_perm arr (shell.gaps.getD k 0) (shell.gaps.getD k 0) n h
    exact (ihk _ n (by rw [hp.length_eq]; exact h)).trans hp

theorem gapLoop_sorted : ∀ (k : Nat) (arr : List Str),
    List.Sorted (· ≤ ·) (shell.gapLoop arr arr.length (k + 1)) := by
  intro k
  induction k with
  | zero =>
    intro arr
    rw [shell.gapLoop, shell.gapLoop]
    have hg : shell.gaps.getD 0 0 = 1 := rfl
    rw [hg]
    exact gapPass_one_sorted arr 1 (sorted_take_one arr)
  | succ k ihk =>
    intro arr
    rw [shell.gapLoop]
    have hlen := gapPass_length arr (shell.gaps.getD (k + 1) 0)
      (shell.gaps.getD (k + 1) 0) arr.length le_rfl
    have := ihk (gapPass arr (shell.gaps.getD (k + 1) 0)
      (shell.gaps.getD (k + 1) 0) arr.length)
    rw [hlen] at this
    exact this

theorem shell_sort_perm (data : List Str) : (shell.sort data).Perm data := by
  unfold shell.sort
  cases h : shell.findGapIndex data.length shell.gaps.length with
  | zero => rw [shell.gapLoop]
  | succ k => exact gapLoop_perm (k + 1) data data.length le_rfl

theorem shell_sort_sorted (data : List Str) : List.Sorted (· ≤ ·) (shell.sort data) := by
  unfold shell.sort
  cases h : shell.findGapIndex data.length shell.gaps.length with
  | zero =>
    rw [shell.gapLoop]
    exact sorted_of_length_le_one
      (findGapIndex_eq_zero shell.gaps.length (by simp [shell.gaps]) h)
  | succ k => exact gapLoop_sorted k data

/-! ## bubble.py: correctness -/

theorem chain'_of_length_le_one {l : List Str} (h : l.length ≤ 1) :
    List.Chain' (· ≤ ·) l := by
  match l with
  | [] => simp
  | [a] => simp
  | a :: b :: t => simp at h

theorem bubble_pass_perm : ∀ (l : List Str) (b : Nat), (bubble.pass l b).1.Perm l := by
  intro l b
  induction l, b using bubble.pass.induct with
  | case1 x y rest b h ih =>
    rw [bubble.pass, if_pos h]
    exact ((ih.cons y).trans (List.Perm.swap x y rest))
  | case2 x y rest b h ih =>
    rw [bubble.pass, if_neg h]
    exact ih.cons x
  | case3 t l h =>
    rw [bubble.pass.eq_def]
    split
    · exact ((h _ _ _ _ rfl rfl).elim : _)
    · exact List.Perm.refl _

theorem bubble_pass_drop : ∀ (l : List Str) (b : Nat),
    (bubble.pass l b).1.drop (b + 1) = l.drop (b + 1) := by
  intro l b
  induction l, b using bubble.pass.induct with
  | case1 x y rest b h ih =>
    rw [bubble.pass, if_pos h]
    simpa using ih
  | case2 x y rest b h ih =>
    rw [bubble.pass, if_neg h]
    simpa using ih
  | case3 t l h =>
    rw [bubble.pass.eq_def]
    split
    · exact ((h _ _ _ _ rfl rfl).elim : _)
    · rfl

theorem bubble_pass_bound : ∀ (l : List Str) (b : Nat), b + 1 ≤ l.length →
    ∀ x ∈ l.take (b + 1), x ≤ idx (bubble.pass l b).1 b := by
  intro l b
  induction l, b using bubble.pass.induct with
  | case1 x y rest b h ih =>
    intro hlen x' hx'
    rw [bubble.pass, if_pos h]
    simp only [idx, List.getD_cons_succ]
    have hlen' : b + 1 ≤ (x :: rest).length := by simp at hlen ⊢; omega
    have hx : x ≤ idx (bubble.pass (x :: rest) b).1 b :=
      ih hlen' x (by simp [List.take_succ_cons])
    simp only [List.take_succ_cons, List.mem_cons] at hx'
    rcases hx' with rfl | rfl | hx'
    · exact hx
    · exact le_trans (le_of_lt h) hx
    · exact ih hlen' x' (by simp only [List.take_succ_cons, List.mem_cons]; right; exact hx')
  | case2 x y rest b h ih =>
    intro hlen x' hx'
    rw [bubble.pass, if_neg h]
    simp only [idx, List.getD_cons_succ]
    have hxy : x ≤ y := le_of_not_lt h
    have hlen' : b + 1 ≤ (y :: rest).length := by simp at hlen ⊢; omega
    have hy : y ≤ idx (bubble.pass (y :: rest) b).1 b :=
      ih hlen' y (by simp [List.take_succ_cons])
    simp only [List.take_succ_cons, List.mem_cons] at hx'
    rcases hx' with rfl | rfl | hx'
    · exact le_trans hxy hy
    · exact hy
    · exact ih hlen' x' (by simp only [List.take_succ_cons, List.mem_cons]; right; exact hx')
  | case3 t l h =>
    intro hlen x' hx'
    rw [bubble.pass.eq_def]
    split
    · exact ((h _ _ _ _ rfl rfl).elim : _)
    · cases l with
      | nil => simp at hlen
      | cons c l' =>
        cases t with
        | zero =>
          simp only [List.take_succ_cons, List.take_zero, List.mem_cons,
            List.not_mem_nil, or_false] at hx'
          subst hx'
          simp [idx]
        | succ s =>
          cases l' with
          | nil => simp at hlen
          | cons d l'' => exact (h c d l'' s rfl rfl).elim

theorem bubble_pass_false : ∀ (l : List Str) (b : Nat), (bubble.pass l b).2 = false →
    (bubble.pass l b).1 = l ∧ List.Chain' (· ≤ ·) (l.take (b + 1)) := by
  intro l b
  induction l, b using bubble.pass.induct with
  | case1 x y rest b h ih =>
    intro hf
    rw [bubble.pass, if_pos h] at hf
    simp at hf
  | case2 x y rest b h ih =>
    intro hf
    rw [bubble.pass, if_neg h] at hf
    have hih := ih hf
    rw [bubble.pass, if_neg h]
    constructor
    · show x :: (bubble.pass (y :: rest) b).1 = x :: y :: rest
      rw [hih.1]
    · show List.Chain' (· ≤ ·) ((x :: y :: rest).take (b + 1 + 1))
      simp only [List.take_succ_cons]
      rw [List.chain'_cons]
      refine ⟨le_of_not_lt h, ?_⟩
      have h2 := hih.2
      rw [List.take_succ_cons] at h2
      exact h2
  | case3 t l h =>
    intro hf
    rw [bubble.pass.eq_def]
    split
    · exact ((h _ _ _ _ rfl rfl).elim : _)
    · refine ⟨rfl, ?_⟩
      cases l with
      | nil => simp
      | cons c l' =>
        cases t with
        | zero => simp
        | succ s =>
          cases l' with
          | nil => simp
          | cons d l'' => exact (h c d l'' s rfl rfl).elim

theorem bubble_pass_take_perm (l : List Str) (b : Nat) :
    ((bubble.pass l b).1.take (b + 1)).Perm (l.take (b + 1)) :=
  perm_take_of_perm_of_drop_eq (bubble_pass_perm l b) (b + 1) (bubble_pass_drop l b)

theorem bubble_loop_perm : ∀ (arr : List Str) (n i : Nat),
    (bubble.loop arr n i).Perm arr := by
  intro arr n i
  induction arr, n, i using bubble.loop.induct with
  | case1 arr n i h hflag ih =>
    rw [bubble.loop, if_pos h, if_pos hflag]
    exact ih.trans (bubble_pass_perm arr (n - i - 1))
  | case2 arr n i h hflag =>
    rw [bubble.loop, if_pos h, if_neg hflag]
    exact bubble_pass_perm arr (n - i - 1)
  | case3 arr n i h =>
    rw [bubble.loop, if_neg h]

theorem bubble_loop_sorted : ∀ (arr : List Str) (n i : Nat), n = arr.length →
    List.Sorted (· ≤ ·) (arr.drop (n - i)) →
    (∀ x ∈ arr.take (n - i), ∀ y ∈ arr.drop (n - i), x ≤ y) →
    List.Sorted (· ≤ ·) (bubble.loop arr n i) := by
  intro arr n i
  induction arr, n, i using bubble.loop.induct with
  | case1 arr n i h hflag ih =>
    intro hn hsort hcross
    rw [bubble.loop, if_pos h, if_pos hflag]
    have hb : n - i - 1 + 1 = n - i := by omega
    have hlen : (bubble.pass arr (n - i - 1)).1.length = arr.length :=
      (bubble_pass_perm arr (n - i - 1)).length_eq
    have hblt : n - i - 1 < (bubble.pass arr (n - i - 1)).1.length := by omega
    have hdropped : (bubble.pass arr (n - i - 1)).1.drop (n - i) = arr.drop (n - i) := by
      have := bubble_pass_drop arr (n - i - 1)
      rwa [hb] at this
    have htakeperm : ((bubble.pass arr (n - i - 1)).1.take (n - i)).Perm
        (arr.take (n - i)) := by
      have := bubble_pass_take_perm arr (n - i - 1)
      rwa [hb] at this
    -- the maximum element placed at the boundary position
    have hMmem : (bubble.pass arr (n - i - 1)).1[n - i - 1] ∈ arr.take (n - i) := by
      apply htakeperm.subset
      have hlt : n - i - 1 < ((bubble.pass arr (n - i - 1)).1.take (n - i)).length := by
        rw [List.length_take]; omega
      have : ((bubble.pass arr (n - i - 1)).1.take (n - i))[n - i - 1] =
          (bubble.pass arr (n - i - 1)).1[n - i - 1] := List.getElem_take _
      rw [← this]
      exact List.getElem_mem hlt
    have hbound : ∀ x ∈ arr.take (n - i),
        x ≤ (bubble.pass arr (n - i - 1)).1[n - i - 1] := by
      intro x hx
      rw [← idx_eq_getElem hblt]
      apply bubble_pass_bound arr (n - i - 1) (by omega)
      rwa [hb]
    have hdropcons : (bubble.pass arr (n - i - 1)).1.drop (n - i - 1) =
        (bubble.pass arr (n - i - 1)).1[n - i - 1] :: arr.drop (n - i) := by
      have hgc := List.getElem_cons_drop (bubble.pass arr (n - i - 1)).1 (n - i - 1) hblt
      rw [hb] at hgc
      rw [hdropped] at hgc
      exact hgc.symm
    apply ih
    · omega
    · rw [show n - (i + 1) = n - i - 1 by omega, hdropcons]
      rw [List.sorted_cons]
      refine ⟨?_, hsort⟩
      intro b hb'
      exact hcross _ hMmem b hb' 
    · rw [show n - (i + 1) = n - i - 1 by omega]
      intro x hx y hy
      have hxmem : x ∈ arr.take (n - i) := by
        apply htakeperm.subset
        have : (bubble.pass arr (n - i - 1)).1.take (n - i - 1) =
            ((bubble.pass arr (n - i - 1)).1.take (n - i)).take (n - i - 1) := by
          rw [List.take_take, Nat.min_eq_left (by omega)]
        rw [this] at hx
        exact (List.take_sublist _ _).subset hx
      rw [hdropcons] at hy
      rcases List.mem_cons.mp hy with rfl | hy'
      · exact hbound x hxmem
      · exact hcross x hxmem y hy'
  | case2 arr n i h hflag =>
    intro hn hsort hcross
    rw [bubble.loop, if_pos h, if_neg hflag]
    have hfalse := bubble_pass_false arr (n - i - 1) (by simpa using hflag)
    rw [hfalse.1]
    have hb : n - i - 1 + 1 = n - i := by omega
    have hchain := hfalse.2
    rw [hb] at hchain
    have hpw : List.Sorted (· ≤ ·) (arr.take (n - i)) :=
      List.chain'_iff_pairwise.mp hchain
    have hdecomp := List.take_append_drop (n - i) arr
    rw [← hdecomp]
    unfold List.Sorted
    rw [List.pairwise_append]
    exact ⟨hpw, hsort, hcross⟩
  | case3 arr n i h =>
    intro hn hsort hcross
    rw [bubble.loop, if_neg h]
    have hzero : n - i = 0 := by omega
    rw [hzero] at hsort
    exact hsort

theorem bubble_sort_perm (data : List Str) : (bubble.sort data).Perm data :=
  bubble_loop_perm data data.length 0

theorem bubble_sort_sorted (data : List Str) :
    List.Sorted (· ≤ ·) (bubble.sort data) := by
  apply bubble_loop_sorted data data.length 0 rfl
  · rw [Nat.sub_zero, List.drop_length]
    simp
  · intro x hx y hy
    rw [Nat.sub_zero, List.drop_length] at hy
    simp at hy

/-! ## selection.py: correctness -/

theorem findMin_spec_aux : ∀ (d : Nat) (arr : List Str) (n j minIdx : Nat), n - j ≤ d →
    (selection.findMin arr n j minIdx = minIdx ∨
      (j ≤ selection.findMin arr n j minIdx ∧ selection.findMin arr n j minIdx < n)) ∧
    idx arr (selection.findMin arr n j minIdx) ≤ idx arr minIdx ∧
    (∀ k, j ≤ k → k < n → idx arr (selection.findMin arr n j minIdx) ≤ idx arr k) := by
  intro d
  induction d with
  | zero =>
    intro arr n j minIdx hd
    rw [selection.findMin, if_neg (by omega)]
    exact ⟨Or.inl rfl, le_rfl, fun k hk1 hk2 => by omega⟩
  | succ d ihd =>
    intro arr n j minIdx hd
    by_cases h : j < n
    · rw [selection.findMin, if_pos h]
      obtain ⟨iha, ihb, ihc⟩ := ihd arr n (j + 1)
        (if idx arr j < idx arr minIdx then j else minIdx) (by omega)
      by_cases hc : idx arr j < idx arr minIdx
      · rw [if_pos hc] at iha ihb ihc ⊢
        refine ⟨?_, le_trans ihb (le_of_lt hc), ?_⟩
        · rcases iha with h' | h'
          · right; omega
          · right; omega
        · intro k hk1 hk2
          rcases Nat.eq_or_lt_of_le hk1 with rfl | hk1'
          · exact ihb
          · exact ihc k (by omega) hk2
      · rw [if_neg hc] at iha ihb ihc ⊢
        have hle : idx arr minIdx ≤ idx arr j := le_of_not_lt hc
        refine ⟨?_, ihb, ?_⟩
        · rcases iha with h' | h'
          · left; exact h'
          · right; omega
        · intro k hk1 hk2
          rcases Nat.eq_or_lt_of_le hk1 with rfl | hk1'
          · exact le_trans ihb hle
          · exact ihc k (by omega) hk2
    · rw [selection.findMin, if_neg h]
      exact ⟨Or.inl rfl, le_rfl, fun k hk1 hk2 => absurd (by omega : j < n) h⟩

theorem findMin_spec (arr : List Str) (n j minIdx : Nat) :
    (selection.findMin arr n j minIdx = minIdx ∨
      (j ≤ selection.findMin arr n j minIdx ∧ selection.findMin arr n j minIdx < n)) ∧
    idx arr (selection.findMin arr n j minIdx) ≤ idx arr minIdx ∧
    (∀ k, j ≤ k → k < n → idx arr (selection.findMin arr n j minIdx) ≤ idx arr k) :=
  findMin_spec_aux (n - j) arr n j minIdx le_rfl

theorem take_lswap_of_le (arr : List Str) (i j k : Nat) (h1 : k ≤ i) (h2 : k ≤ j) :
    (lswap arr i j).take k = arr.take k := by
  unfold lswap
  rw [take_set_of_le _ _ _ _ h2, take_set_of_le _ _ _ _ h1]

theorem selection_loop_perm : ∀ (arr : List Str) (n i : Nat), n ≤ arr.length →
    (selection.loop arr n i).Perm arr := by
  intro arr n i
  induction arr, n, i using selection.loop.induct with
  | case1 arr n i h ih =>
    intro hn
    rw [selection.loop, if_pos h]
    have hm := (findMin_spec arr n (i + 1) i).1
    have hmlt : selection.findMin arr n (i + 1) i < n := by
      rcases hm with h' | h' <;> omega
    have hperm := lswap_perm arr i (selection.findMin arr n (i + 1) i)
      (by omega) (by omega)
    exact (ih (by rw [hperm.length_eq]; omega)).trans hperm
  | case2 arr n i h =>
    intro hn
    rw [selection.loop, if_neg h]

theorem selection_loop_sorted : ∀ (arr : List Str) (n i : Nat), n = arr.length →
    List.Sorted (· ≤ ·) (arr.take i) →
    (∀ x ∈ arr.take i, ∀ k, i ≤ k → k < n → x ≤ idx arr k) →
    List.Sorted (· ≤ ·) (selection.loop arr n i) := by
  intro arr n i
  induction arr, n, i using selection.loop.induct with
  | case1 arr n i h ih =>
    intro hn hsort hcross
    rw [selection.loop, if_pos h]
    have hm := findMin_spec arr n (i + 1) i
    obtain ⟨hma, hmb, hmc⟩ := hm
    have hmlt : selection.findMin arr n (i + 1) i < n := by
      rcases hma with h' | h' <;> omega
    have hmge : i ≤ selection.findMin arr n (i + 1) i := by
      rcases hma with h' | h' <;> omega
    have hmin : ∀ k, i ≤ k → k < n → idx arr (selection.findMin arr n (i + 1) i) ≤ idx arr k := by
      intro k hk1 hk2
      rcases Nat.eq_or_lt_of_le hk1 with rfl | hk1'
      · exact hmb
      · exact hmc k (by omega) hk2
    have hilen : i < arr.length := by omega
    have hmlen : selection.findMin arr n (i + 1) i < arr.length := by omega
    have hlswaplen : (lswap arr i (selection.findMin arr n (i + 1) i)).length = arr.length :=
      length_lswap arr i (selection.findMin arr n (i + 1) i)
    have htake : (lswap arr i (selection.findMin arr n (i + 1) i)).take i = arr.take i :=
      take_lswap_of_le arr i (selection.findMin arr n (i + 1) i) i le_rfl hmge
    have hnewi : idx (lswap arr i (selection.findMin arr n (i + 1) i)) i =
        idx arr (selection.findMin arr n (i + 1) i) := idx_lswap_fst hilen hmlen
    have hnewm : idx (lswap arr i (selection.findMin arr n (i + 1) i))
        (selection.findMin arr n (i + 1) i) = idx arr i := idx_lswap_snd hmlen
    apply ih
    · omega
    · -- sortedness of the grown prefix
      have hjlt : i < (lswap arr i (selection.findMin arr n (i + 1) i)).length := by omega
      rw [take_succ_of_lt hjlt, htake, sorted_snoc]
      refine ⟨hsort, ?_⟩
      intro x hx
      rw [← idx_eq_getElem hjlt, hnewi]
      exact hcross x hx (selection.findMin arr n (i + 1) i) hmge hmlt
    · -- the cross inequality for the grown prefix
      intro x hx k hk1 hk2
      have hjlt : i < (lswap arr i (selection.findMin arr n (i + 1) i)).length := by omega
      rw [take_succ_of_lt hjlt, htake] at hx
      have hxcases := List.mem_append.mp hx
      have hkval : idx (lswap arr i (selection.findMin arr n (i + 1) i)) k =
          (if k = selection.findMin arr n (i + 1) i then idx arr i else idx arr k) := by
        by_cases hkm : k = selection.findMin arr n (i + 1) i
        · rw [if_pos hkm, hkm, hnewm]
        · rw [if_neg hkm, idx_lswap_other (by omega) hkm]
      rcases hxcases with hx' | hx'
      · -- x was already in the sorted prefix
        rw [hkval]
        by_cases hkm : k = selection.findMin arr n (i + 1) i
        · rw [if_pos hkm]
          exact hcross x hx' i le_rfl (by omega)
        · rw [if_neg hkm]
          exact hcross x hx' k (by omega) hk2
      · -- x is the newly placed minimum
        rw [List.mem_singleton] at hx'
        subst hx'
        rw [← idx_eq_getElem hjlt, hnewi, hkval]
        by_cases hkm : k = selection.findMin arr n (i + 1) i
        · rw [if_pos hkm]
          exact hmin i le_rfl (by omega)
        · rw [if_neg hkm]
          exact hmin k (by omega) hk2
  | case2 arr n i h =>
    intro hn hsort hcross
    rw [selection.loop, if_neg h]
    rw [List.take_of_length_le (by omega)] at hsort
    exact hsort

theorem selection_sort_perm (data : List Str) : (selection.sort data).Perm data :=
  selection_loop_perm data data.length 0 le_rfl

theorem selection_sort_sorted (data : List Str) :
    List.Sorted (· ≤ ·) (selection.sort data) := by
  apply selection_loop_sorted data data.length 0 rfl
  · simp
  · intro x hx
    simp at hx

/-! ## heap.py: correctness

`heapDom arr n j` is the max-heap dominance condition at node `j` for the
heap occupying the first `n` cells; `under r k` decides whether `k` lies in
the subtree rooted at `r` (the region `_heapify` may touch below its root). -/

def heapDom (arr : List Str) (n j : Nat) : Prop :=
  (2 * j + 1 < n → idx arr (2 * j + 1) ≤ idx arr j) ∧
    (2 * j + 2 < n → idx arr (2 * j + 2) ≤ idx arr j)

def under (r k : Nat) : Bool :=
  if k < r then false
  else if k = r then true
  else under r ((k - 1) / 2)
termination_by k
decreasing_by omega

theorem under_self (r : Nat) : under r r = true := by
  rw [under]
  simp

theorem under_of_lt {r k : Nat} (h : k < r) : under r k = false := by
  rw [under, if_pos h]

theorem under_parent {r k : Nat} (h1 : r < k) :
    under r k = under r ((k - 1) / 2) := by
  rw [under, if_neg (by omega), if_neg (by omega)]

theorem under_trans : ∀ (k r s : Nat), under r s = true → under s k = true →
    under r k = true := by
  intro k
  induction k using Nat.strong_induction_on with
  | _ k ih =>
    intro r s hrs hsk
    by_cases hks : k = s
    · subst hks; exact hrs
    · by_cases hlt : k < s
      · rw [under_of_lt hlt] at hsk
        exact absurd hsk (by simp)
      · have hsk' : under s ((k - 1) / 2) = true := by
          rwa [under_parent (by omega)] at hsk
        have := ih ((k - 1) / 2) (by omega) r s hrs hsk'
        have hrk : r < k := by
          -- r ≤ s < k
          by_cases hrs' : r = s
          · omega
          · by_cases h' : s < r
            · rw [under_of_lt h'] at hrs; exact absurd hrs (by simp)
            · omega
        rwa [← under_parent hrk] at this

theorem getElem?_lswap_other {arr : List Str} {i j m : Nat} (h1 : m ≠ i) (h2 : m ≠ j) :
    (lswap arr i j)[m]? = arr[m]? := by
  unfold lswap
  rw [List.getElem?_set_ne (by omega), List.getElem?_set_ne (by omega)]

theorem perm_drop_of_perm_of_take_eq {l₁ l₂ : List Str} (hp : l₁.Perm l₂)
    (k : Nat) (ht : l₁.take k = l₂.take k) : (l₁.drop k).Perm (l₂.drop k) := by
  apply (List.perm_append_left_iff (l₁.take k)).mp
  have h2' : l₁.take k ++ l₂.drop k = l₂ := by rw [ht, List.take_append_drop]
  rw [List.take_append_drop, h2']
  exact hp

theorem mem_take_imp {arr : List Str} {m : Nat} {x : Str} (h : x ∈ arr.take m) :
    ∃ k, k < m ∧ k < arr.length ∧ idx arr k = x := by
  rw [List.mem_iff_getElem] at h
  obtain ⟨k, hk, hval⟩ := h
  have hk1 : k < m := by
    have := hk
    rw [List.length_take] at this
    omega
  have hk2 : k < arr.length := by
    have := hk
    rw [List.length_take] at this
    omega
  refine ⟨k, hk1, hk2, ?_⟩
  rw [idx_eq_getElem hk2, ← hval, List.getElem_take]

theorem largest_spec (arr : List Str) (n i : Nat) :
    (heap.largest arr n i = i ∨ heap.largest arr n i = 2 * i + 1 ∨
      heap.largest arr n i = 2 * i + 2) ∧
    idx arr i ≤ idx arr (heap.largest arr n i) ∧
    (2 * i + 1 < n → idx arr (2 * i + 1) ≤ idx arr (heap.largest arr n i)) ∧
    (2 * i + 2 < n → idx arr (2 * i + 2) ≤ idx arr (heap.largest arr n i)) := by
  unfold heap.largest
  dsimp only
  by_cases hc1 : 2 * i + 1 < n ∧ idx arr i < idx arr (2 * i + 1)
  · rw [if_pos hc1]
    by_cases hc2 : 2 * i + 2 < n ∧ idx arr (2 * i + 1) < idx arr (2 * i + 2)
    · rw [if_pos hc2]
      exact ⟨Or.inr (Or.inr rfl), le_trans (le_of_lt hc1.2) (le_of_lt hc2.2),
        fun _ => le_of_lt hc2.2, fun _ => le_rfl⟩
    · rw [if_neg hc2]
      refine ⟨Or.inr (Or.inl rfl), le_of_lt hc1.2, fun _ => le_rfl, fun hn => ?_⟩
      rcases not_and_or.mp hc2 with h' | h'
      · exact absurd hn h'
      · exact le_of_not_lt h'
  · rw [if_neg hc1]
    by_cases hc2 : 2 * i + 2 < n ∧ idx arr i < idx arr (2 * i + 2)
    · rw [if_pos hc2]
      refine ⟨Or.inr (Or.inr rfl), le_of_lt hc2.2, fun hn => ?_, fun _ => le_rfl⟩
      rcases not_and_or.mp hc1 with h' | h'
      · exact absurd hn h'
      · exact le_trans (le_of_not_lt h') (le_of_lt hc2.2)
    · rw [if_neg hc2]
      refine ⟨Or.inl rfl, le_rfl, fun hn => ?_, fun hn => ?_⟩
      · rcases not_and_or.mp hc1 with h' | h'
        · exact absurd hn h'
        · exact le_of_not_lt h'
      · rcases not_and_or.mp hc2 with h' | h'
        · exact absurd hn h'
        · exact le_of_not_lt h'

/-- Every node of the subtree rooted at `i`, in a heap whose nodes above `i`
all dominate, is bounded by the value `_heapify` promotes to `i`. -/
theorem chain_bound_under (arr : List Str) (n i : Nat)
    (hpre : ∀ j, i < j → j < n → heapDom arr n j) :
    ∀ k, under i k = true → k < n → idx arr k ≤ idx arr (heap.largest arr n i) := by
  intro k
  induction k using Nat.strong_induction_on with
  | _ k ih =>
    intro hu hkn
    by_cases hki : k = i
    · subst hki
      exact (largest_spec arr n k).2.1
    · have hik : i < k := by
        by_contra hc
        rw [under_of_lt (by omega)] at hu
        simp at hu
      have hupar : under i ((k - 1) / 2) = true := by
        rwa [under_parent hik] at hu
      have hparent_ge : i ≤ (k - 1) / 2 := by
        by_contra hc
        rw [under_of_lt (by omega)] at hupar
        simp at hupar
      by_cases hp : (k - 1) / 2 = i
      · -- k is a direct child of i
        have hk : k = 2 * i + 1 ∨ k = 2 * i + 2 := by omega
        obtain ⟨-, -, hc1, hc2⟩ := largest_spec arr n i
        rcases hk with rfl | rfl
        · exact hc1 hkn
        · exact hc2 hkn
      · have hpgt : i < (k - 1) / 2 := by omega
        have hdom := hpre ((k - 1) / 2) hpgt (by omega)
        have hchild : k = 2 * ((k - 1) / 2) + 1 ∨ k = 2 * ((k - 1) / 2) + 2 := by omega
        have hle : idx arr k ≤ idx arr ((k - 1) / 2) := by
          rcases hchild with hc | hc
          · have := hdom.1 (by omega)
            rwa [← hc] at this
          · have := hdom.2 (by omega)
            rwa [← hc] at this
        exact le_trans hle (ih ((k - 1) / 2) (by omega) hupar (by omega))

theorem heapify_frame_not_under (arr : List Str) (n i : Nat) :
    ∀ m, under i m = false → (heap.heapify arr n i)[m]? = arr[m]? := by
  induction arr, n, i using heap.heapify.induct with
  | case1 arr n i h ih =>
    intro m hm
    rw [heap.heapify, dif_pos h]
    have hlt := heap.largest_lt arr n i h
    have hil : under i (heap.largest arr n i) = true := by
      obtain ⟨hsh, -, -, -⟩ := largest_spec arr n i
      have hpar : (heap.largest arr n i - 1) / 2 = i := by
        rcases hsh with h' | h' | h' <;> omega
      rw [under_parent (by omega), hpar]
      exact under_self i
    have hm2 : under (heap.largest arr n i) m = false := by
      by_contra hc
      rw [Bool.not_eq_false] at hc
      rw [under_trans m i (heap.largest arr n i) hil hc] at hm
      simp at hm
    rw [ih m hm2]
    have hmi : m ≠ i := by
      intro hc
      subst hc
      rw [under_self] at hm
      simp at hm
    have hml : m ≠ heap.largest arr n i := by
      intro hc
      subst hc
      rw [hil] at hm
      simp at hm
    exact getElem?_lswap_other hmi hml
  | case2 arr n i h =>
    intro m hm
    rw [heap.heapify, dif_neg h]

theorem heapify_frame_ge (arr : List Str) (n i : Nat) :
    ∀ m, n ≤ m → (heap.heapify arr n i)[m]? = arr[m]? := by
  induction arr, n, i using heap.heapify.induct with
  | case1 arr n i h ih =>
    intro m hm
    rw [heap.heapify, dif_pos h]
    have hlt := heap.largest_lt arr n i h
    rw [ih m hm]
    exact getElem?_lswap_other (by omega) (by omega)
  | case2 arr n i h =>
    intro m hm
    rw [heap.heapify, dif_neg h]

theorem heapify_perm (arr : List Str) (n i : Nat) (hn : n ≤ arr.length) :
    (heap.heapify arr n i).Perm arr := by
  induction arr, n, i using heap.heapify.induct with
  | case1 arr n i h ih =>
    rw [heap.heapify, dif_pos h]
    have hlt := heap.largest_lt arr n i h
    have hswap := lswap_perm arr i (heap.largest arr n i) (by omega) (by omega)
    exact (ih (by rw [hswap.length_eq]; exact hn)).trans hswap
  | case2 arr n i h =>
    rw [heap.heapify, dif_neg h]

theorem heapify_length (arr : List Str) (n i : Nat) (hn : n ≤ arr.length) :
    (heap.heapify arr n i).length = arr.length :=
  (heapify_perm arr n i hn).length_eq

theorem heapify_spec : ∀ (arr : List Str) (n i : Nat), n ≤ arr.length →
    (∀ j, i < j → j < n → heapDom arr n j) →
    (∀ j, i ≤ j → j < n → heapDom (heap.heapify arr n i) n j) ∧
    (∀ b, (∀ k, under i k = true → k < n → idx arr k ≤ b) →
      ∀ k, under i k = true → k < n → idx (heap.heapify arr n i) k ≤ b) := by
  intro arr n i
  induction arr, n, i using heap.heapify.induct with
  | case2 arr n i h =>
    intro hn hpre
    rw [heap.heapify, dif_neg h]
    have heq : heap.largest arr n i = i := not_not.mp h
    constructor
    · intro j hij hjn
      rcases Nat.eq_or_lt_of_le hij with heq' | hlt
      · subst heq'
        obtain ⟨-, -, hc1, hc2⟩ := largest_spec arr n i
        rw [heq] at hc1 hc2
        exact ⟨hc1, hc2⟩
      · exact hpre j hlt hjn
    · intro b hb k hu hk
      exact hb k hu hk
  | case1 arr n i h ih =>
    intro hn hpre
    rw [heap.heapify, dif_pos h]
    obtain ⟨hil2, hl2n⟩ := heap.largest_lt arr n i h
    obtain ⟨hshape, hbi, hbc1, hbc2⟩ := largest_spec arr n i
    have hilen : i < arr.length := by omega
    have hl2len : heap.largest arr n i < arr.length := by omega
    have hAlen : (lswap arr i (heap.largest arr n i)).length = arr.length :=
      length_lswap arr i (heap.largest arr n i)
    have hAi : idx (lswap arr i (heap.largest arr n i)) i = idx arr (heap.largest arr n i) :=
      idx_lswap_fst hilen hl2len
    have hAl2 : idx (lswap arr i (heap.largest arr n i)) (heap.largest arr n i) =
        idx arr i := idx_lswap_snd hl2len
    have hAother : ∀ m, m ≠ i → m ≠ heap.largest arr n i →
        idx (lswap arr i (heap.largest arr n i)) m = idx arr m := fun m h1 h2 =>
      idx_lswap_other h1 h2
    have hul2 : under i (heap.largest arr n i) = true := by
      have hpar : (heap.largest arr n i - 1) / 2 = i := by
        rcases hshape with h' | h' | h' <;> omega
      rw [under_parent hil2, hpar]
      exact under_self i
    have hui : under (heap.largest arr n i) i = false := under_of_lt hil2
    have hpre' : ∀ j, heap.largest arr n i < j → j < n →
        heapDom (lswap arr i (heap.largest arr n i)) n j := by
      intro j hj1 hj2
      obtain ⟨hd1, hd2⟩ := hpre j (by omega) hj2
      constructor
      · intro hc
        rw [hAother (2 * j + 1) (by omega) (by omega), hAother j (by omega) (by omega)]
        exact hd1 hc
      · intro hc
        rw [hAother (2 * j + 2) (by omega) (by omega), hAother j (by omega) (by omega)]
        exact hd2 hc
    obtain ⟨ihDom, ihBnd⟩ := ih (by omega) hpre'
    -- frame on positions outside the promoted subtree
    have hframe : ∀ m, under (heap.largest arr n i) m = false →
        idx (heap.heapify (lswap arr i (heap.largest arr n i)) n (heap.largest arr n i)) m =
          idx (lswap arr i (heap.largest arr n i)) m := fun m hm =>
      idx_congr_of_getElem? (heapify_frame_not_under _ n _ m hm)
    -- the value promoted to the root
    have hresi : idx (heap.heapify (lswap arr i (heap.largest arr n i)) n
        (heap.largest arr n i)) i = idx arr (heap.largest arr n i) := by
      rw [hframe i hui, hAi]
    -- bound on the sifted subtree root
    have hbM : ∀ k, under (heap.largest arr n i) k = true → k < n →
        idx (lswap arr i (heap.largest arr n i)) k ≤ idx arr (heap.largest arr n i) := by
      intro k hu hk
      by_cases hkl2 : k = heap.largest arr n i
      · subst hkl2
        rw [hAl2]
        exact hbi
      · have hkgt : heap.largest arr n i < k := by
          by_contra hc
          rw [under_of_lt (by omega)] at hu
          simp at hu
        rw [hAother k (by omega) hkl2]
        exact chain_bound_under arr n i hpre k
          (under_trans k i (heap.largest arr n i) hul2 hu) hk
    have hresl2 : idx (heap.heapify (lswap arr i (heap.largest arr n i)) n
        (heap.largest arr n i)) (heap.largest arr n i) ≤
        idx arr (heap.largest arr n i) :=
      ihBnd (idx arr (heap.largest arr n i)) hbM (heap.largest arr n i)
        (under_self _) hl2n
    constructor
    · intro j hij hjn
      by_cases hjl2 : heap.largest arr n i ≤ j
      · exact ihDom j hjl2 hjn
      · push_neg at hjl2
        rcases Nat.eq_or_lt_of_le hij with heq' | hlt
        · -- i = i : dominance at the root
          subst heq'
          constructor
          · intro hc
            rw [hresi]
            by_cases hch : 2 * i + 1 = heap.largest arr n i
            · rw [hch]
              exact hresl2
            · have hchlt : 2 * i + 1 < heap.largest arr n i := by
                rcases hshape with h' | h' | h' <;> omega
              rw [hframe (2 * i + 1) (under_of_lt hchlt),
                hAother (2 * i + 1) (by omega) (by omega)]
              exact hbc1 hc
          · intro hc
            rw [hresi]
            by_cases hch : 2 * i + 2 = heap.largest arr n i
            · rw [hch]
              exact hresl2
            · have hl2eq : heap.largest arr n i = 2 * i + 1 := by
                rcases hshape with h' | h' | h' <;> omega
              have hu2 : under (heap.largest arr n i) (2 * i + 2) = false := by
                rw [under_parent (by omega), show (2 * i + 2 - 1) / 2 = i by omega]
                exact under_of_lt (by omega)
              rw [hframe (2 * i + 2) hu2, hAother (2 * i + 2) (by omega) (by omega)]
              exact hbc2 hc
        · -- i < j < largest : untouched interior node
          have huj : under (heap.largest arr n i) j = false := under_of_lt hjl2
          have hl2le : heap.largest arr n i ≤ 2 * i + 2 := by
            rcases hshape with h' | h' | h' <;> omega
          have hu1 : under (heap.largest arr n i) (2 * j + 1) = false := by
            rw [under_parent (by omega), show (2 * j + 1 - 1) / 2 = j by omega]
            exact huj
          have hu2 : under (heap.largest arr n i) (2 * j + 2) = false := by
            rw [under_parent (by omega), show (2 * j + 2 - 1) / 2 = j by omega]
            exact huj
          obtain ⟨hd1, hd2⟩ := hpre j hlt hjn
          constructor
          · intro hc
            rw [hframe (2 * j + 1) hu1, hframe j huj,
              hAother (2 * j + 1) (by omega) (by omega), hAother j (by omega) (by omega)]
            exact hd1 hc
          · intro hc
            rw [hframe (2 * j + 2) hu2, hframe j huj,
              hAother (2 * j + 2) (by omega) (by omega), hAother j (by omega) (by omega)]
            exact hd2 hc
    · intro b hb k hu hk
      have hbA : ∀ k, under (heap.largest arr n i) k = true → k < n →
          idx (lswap arr i (heap.largest arr n i)) k ≤ b := by
        intro k hu' hk'
        by_cases hkl2 : k = heap.largest arr n i
        · subst hkl2
          rw [hAl2]
          exact hb i (under_self i) (by omega)
        · have hkgt : heap.largest arr n i < k := by
            by_contra hc
            rw [under_of_lt (by omega)] at hu'
            simp at hu'
          rw [hAother k (by omega) hkl2]
          exact hb k (under_trans k i (heap.largest arr n i) hul2 hu') hk'
      by_cases hul : under (heap.largest arr n i) k = true
      · exact ihBnd b hbA k hul hk
      · have hul' : under (heap.largest arr n i) k = false := by
          rw [Bool.not_eq_true] at hul
          exact hul
        rw [hframe k hul']
        by_cases hki : k = i
        · subst hki
          rw [hAi]
          exact hb (heap.largest arr n k) hul2 hl2n
        · have hkl2 : k ≠ heap.largest arr n i := by
            intro hc
            rw [hc, under_self] at hul'
            simp at hul'
          rw [hAother k hki hkl2]
          exact hb k hu hk

theorem idx_mem_take {arr : List Str} {k m : Nat} (h1 : k < m) (h2 : k < arr.length) :
    idx arr k ∈ arr.take m := by
  have hlt : k < (arr.take m).length := by
    rw [List.length_take]; omega
  have : (arr.take m)[k] = arr[k] := List.getElem_take _
  rw [idx_eq_getElem h2, ← this]
  exact List.getElem_mem hlt

theorem build_spec : ∀ (k : Nat) (arr : List Str) (n : Nat), n ≤ arr.length →
    (∀ j, k ≤ j → j < n → heapDom arr n j) →
    (∀ j, j < n → heapDom (heap.build arr n k) n j) ∧ (heap.build arr n k).Perm arr := by
  intro k
  induction k with
  | zero =>
    intro arr n hn hpre
    rw [heap.build]
    exact ⟨fun j hj => hpre j (Nat.zero_le j) hj, List.Perm.refl arr⟩
  | succ k ihk =>
    intro arr n hn hpre
    rw [heap.build]
    have hs := heapify_spec arr n k hn (fun j hj hjn => hpre j (by omega) hjn)
    have hperm := heapify_perm arr n k hn
    have hrec := ihk (heap.heapify arr n k) n (by rw [hperm.length_eq]; exact hn)
      (fun j hj hjn => hs.1 j hj hjn)
    exact ⟨hrec.1, hrec.2.trans hperm⟩

theorem root_max (arr : List Str) (n : Nat)
    (hheap : ∀ j, j < n → heapDom arr n j) :
    ∀ k, k < n → idx arr k ≤ idx arr 0 := by
  intro k
  induction k using Nat.strong_induction_on with
  | _ k ih =>
    intro hk
    rcases Nat.eq_zero_or_pos k with rfl | hpos
    · exact le_rfl
    · have hparent : (k - 1) / 2 < k := by omega
      have hchild : k = 2 * ((k - 1) / 2) + 1 ∨ k = 2 * ((k - 1) / 2) + 2 := by omega
      have hdom := hheap ((k - 1) / 2) (by omega)
      have hle : idx arr k ≤ idx arr ((k - 1) / 2) := by
        rcases hchild with hc | hc
        · have := hdom.1 (by omega)
          rwa [← hc] at this
        · have := hdom.2 (by omega)
          rwa [← hc] at this
      exact le_trans hle (ih ((k - 1) / 2) hparent (by omega))

theorem extract_spec : ∀ (m : Nat) (arr : List Str), m + 1 ≤ arr.length →
    (∀ j, j < m + 1 → heapDom arr (m + 1) j) →
    List.Sorted (· ≤ ·) (arr.drop (m + 1)) →
    (∀ x ∈ arr.take (m + 1), ∀ y ∈ arr.drop (m + 1), x ≤ y) →
    List.Sorted (· ≤ ·) (heap.extract arr m) ∧ (heap.extract arr m).Perm arr := by
  intro m
  induction m with
  | zero =>
    intro arr hlen hheap hsorted hcross
    rw [heap.extract]
    constructor
    · rw [← List.take_append_drop 1 arr]
      unfold List.Sorted
      rw [List.pairwise_append]
      exact ⟨sorted_take_one arr, hsorted, hcross⟩
    · exact List.Perm.refl arr
  | succ i ihm =>
    intro arr hlen hheap hsorted hcross
    rw [heap.extract]
    have h0len : 0 < arr.length := by omega
    have hi1len : i + 1 < arr.length := by omega
    have hAlen : (lswap arr 0 (i + 1)).length = arr.length := length_lswap arr 0 (i + 1)
    have hA0 : idx (lswap arr 0 (i + 1)) 0 = idx arr (i + 1) := idx_lswap_fst h0len hi1len
    have hAi1 : idx (lswap arr 0 (i + 1)) (i + 1) = idx arr 0 := idx_lswap_snd hi1len
    have hroot := root_max arr (i + 2) hheap
    have hpre : ∀ j, 0 < j → j < i + 1 → heapDom (lswap arr 0 (i + 1)) (i + 1) j := by
      intro j hj0 hji
      obtain ⟨hd1, hd2⟩ := hheap j (by omega)
      constructor
      · intro hc
        rw [idx_lswap_other (by omega) (by omega), idx_lswap_other (by omega) (by omega)]
        exact hd1 (by omega)
      · intro hc
        rw [idx_lswap_other (by omega) (by omega), idx_lswap_other (by omega) (by omega)]
        exact hd2 (by omega)
    have hhs := heapify_spec (lswap arr 0 (i + 1)) (i + 1) 0 (by omega) hpre
    have hBperm : (heap.heapify (lswap arr 0 (i + 1)) (i + 1) 0).Perm
        (lswap arr 0 (i + 1)) := heapify_perm _ _ _ (by omega)
    have hBlen : (heap.heapify (lswap arr 0 (i + 1)) (i + 1) 0).length = arr.length := by
      rw [hBperm.length_eq, hAlen]
    have hAdrop : (lswap arr 0 (i + 1)).drop (i + 2) = arr.drop (i + 2) := by
      apply List.ext_getElem?
      intro p
      rw [List.getElem?_drop, List.getElem?_drop]
      exact getElem?_lswap_other (by omega) (by omega)
    have hBdrop : (heap.heapify (lswap arr 0 (i + 1)) (i + 1) 0).drop (i + 1) =
        (lswap arr 0 (i + 1)).drop (i + 1) := by
      apply List.ext_getElem?
      intro p
      rw [List.getElem?_drop, List.getElem?_drop]
      exact heapify_frame_ge _ _ _ _ (by omega)
    have hAdrop1 : (lswap arr 0 (i + 1)).drop (i + 1) = idx arr 0 :: arr.drop (i + 2) := by
      have hgc := List.getElem_cons_drop (lswap arr 0 (i + 1)) (i + 1) (by omega)
      rw [hAdrop] at hgc
      rw [← hgc, ← idx_eq_getElem (by omega : i + 1 < (lswap arr 0 (i + 1)).length), hAi1]
    -- membership description of the new heap region
    have htakeA : (lswap arr 0 (i + 1)).take (i + 1) =
        (arr.take (i + 1)).set 0 (idx arr (i + 1)) := by
      unfold lswap
      rw [take_set_of_le _ _ _ _ (le_refl (i + 1)), List.set_take]
    have htakeperm : ((heap.heapify (lswap arr 0 (i + 1)) (i + 1) 0).take (i + 1)).Perm
        ((arr.take (i + 1)).set 0 (idx arr (i + 1))) := by
      rw [← htakeA]
      exact perm_take_of_perm_of_drop_eq hBperm (i + 1) hBdrop
    have hmem_bound : ∀ x ∈ (heap.heapify (lswap arr 0 (i + 1)) (i + 1) 0).take (i + 1),
        ∃ k, k < i + 2 ∧ k < arr.length ∧ idx arr k = x := by
      intro x hx
      have hx' := htakeperm.subset hx
      rcases List.mem_or_eq_of_mem_set hx' with h' | h'
      · obtain ⟨k, hk1, hk2, hk3⟩ := mem_take_imp h'
        exact ⟨k, by omega, hk2, hk3⟩
      · exact ⟨i + 1, by omega, by omega, h'.symm⟩
    have hrec := ihm (heap.heapify (lswap arr 0 (i + 1)) (i + 1) 0)
      (by omega) (fun j hj => hhs.1 j (Nat.zero_le j) hj) ?_ ?_
    · refine ⟨hrec.1, ?_⟩
      refine hrec.2.trans (hBperm.trans ?_)
      exact lswap_perm arr 0 (i + 1) h0len hi1len
    · -- the tail from i+1 on is sorted
      rw [hBdrop, hAdrop1]
      rw [List.sorted_cons]
      refine ⟨?_, hsorted⟩
      intro y hy
      have h0mem : idx arr 0 ∈ arr.take (i + 2) := idx_mem_take (by omega) h0len
      exact hcross (idx arr 0) h0mem y hy
    · -- everything left in the heap is at most everything in the tail
      intro x hx y hy
      rw [hBdrop, hAdrop1] at hy
      obtain ⟨k, hk1, hk2, hk3⟩ := hmem_bound x hx
      rcases List.mem_cons.mp hy with rfl | hy'
      · rw [← hk3]
        exact hroot k hk1
      · have hxmem : x ∈ arr.take (i + 2) := by
          rw [← hk3]
          exact idx_mem_take hk1 hk2
        exact hcross x hxmem y hy'

theorem heap_sort_perm (data : List Str) : (heap.sort data).Perm data := by
  unfold heap.sort
  cases data with
  | nil =>
    simp only [List.length_nil, Nat.zero_div]
    rw [heap.build, heap.extract]
  | cons a rest =>
    have hn : (a :: rest).length - 1 + 1 = (a :: rest).length := by simp
    have hbuild := build_spec ((a :: rest).length / 2) (a :: rest) (a :: rest).length
      le_rfl ?_
    · have hblen : (heap.build (a :: rest) (a :: rest).length ((a :: rest).length / 2)).length
          = (a :: rest).length := hbuild.2.length_eq
      have hext := extract_spec ((a :: rest).length - 1)
        (heap.build (a :: rest) (a :: rest).length ((a :: rest).length / 2))
        (by omega) ?_ ?_ ?_
      · exact hext.2.trans hbuild.2
      · intro j hj
        rw [hn] at hj ⊢
        exact hbuild.1 j (by omega)
      · rw [hn, List.drop_eq_nil_of_le (by omega)]
        simp
      · intro x hx y hy
        rw [hn, List.drop_eq_nil_of_le (by omega)] at hy
        simp at hy
    · intro j hj hjn
      constructor
      · intro hc
        omega
      · intro hc
        omega

theorem heap_sort_sorted (data : List Str) : List.Sorted (· ≤ ·) (heap.sort data) := by
  unfold heap.sort
  cases data with
  | nil =>
    simp only [List.length_nil, Nat.zero_div]
    rw [heap.build, heap.extract]
    simp
  | cons a rest =>
    have hn : (a :: rest).length - 1 + 1 = (a :: rest).length := by simp
    have hbuild := build_spec ((a :: rest).length / 2) (a :: rest) (a :: rest).length
      le_rfl ?_
    · have hblen : (heap.build (a :: rest) (a :: rest).length ((a :: rest).length / 2)).length
          = (a :: rest).length := hbuild.2.length_eq
      have hext := extract_spec ((a :: rest).length - 1)
        (heap.build (a :: rest) (a :: rest).length ((a :: rest).length / 2))
        (by omega) ?_ ?_ ?_
      · exact hext.1
      · intro j hj
        rw [hn] at hj ⊢
        exact hbuild.1 j (by omega)
      · rw [hn, List.drop_eq_nil_of_le (by omega)]
        simp
      · intro x hx y hy
        rw [hn, List.drop_eq_nil_of_le (by omega)] at hy
        simp at hy
    · intro j hj hjn
      constructor
      · intro hc
        omega
      · intro hc
        omega

/-! ## quick.py: correctness -/

theorem partLoop_perm : ∀ (arr : List Str) (pivot : Str) (i1 j high : Nat),
    i1 ≤ j → high ≤ arr.length →
    (quick.partLoop arr pivot i1 j high).1.Perm arr := by
  intro arr pivot i1 j high
  induction arr, pivot, i1, j, high using quick.partLoop.induct with
  | case1 arr pivot i1 j high h hle ih =>
    intro hij hlen
    rw [quick.partLoop, if_pos h, if_pos hle]
    have hswap := lswap_perm arr i1 j (by omega) (by omega)
    refine (ih (by omega) (by rw [hswap.length_eq]; exact hlen)).trans hswap
  | case2 arr pivot i1 j high h hle ih =>
    intro hij hlen
    rw [quick.partLoop, if_pos h, if_neg hle]
    exact ih (by omega) hlen
  | case3 arr pivot i1 j high h =>
    intro hij hlen
    rw [quick.partLoop, if_neg h]

theorem partLoop_frame : ∀ (arr : List Str) (pivot : Str) (i1 j high : Nat),
    i1 ≤ j → ∀ m, m < i1 ∨ high ≤ m →
    (quick.partLoop arr pivot i1 j high).1[m]? = arr[m]? := by
  intro arr pivot i1 j high
  induction arr, pivot, i1, j, high using quick.partLoop.induct with
  | case1 arr pivot i1 j high h hle ih =>
    intro hij m hm
    rw [quick.partLoop, if_pos h, if_pos hle]
    rw [ih (by omega) m (by omega)]
    exact getElem?_lswap_other (by omega) (by omega)
  | case2 arr pivot i1 j high h hle ih =>
    intro hij m hm
    rw [quick.partLoop, if_pos h, if_neg hle]
    exact ih (by omega) m hm
  | case3 arr pivot i1 j high h =>
    intro hij m hm
    rw [quick.partLoop, if_neg h]

theorem partLoop_zones : ∀ (arr : List Str) (pivot : Str) (i1 j high : Nat)
    (L : Nat), i1 ≤ j → j ≤ high → high ≤ arr.length →
    (∀ k, L ≤ k → k < i1 → idx arr k ≤ pivot) →
    (∀ k, i1 ≤ k → k < j → pivot < idx arr k) →
    (∀ k, L ≤ k → k < (quick.partLoop arr pivot i1 j high).2 →
      idx (quick.partLoop arr pivot i1 j high).1 k ≤ pivot) ∧
    (∀ k, (quick.partLoop arr pivot i1 j high).2 ≤ k → k < high →
      pivot < idx (quick.partLoop arr pivot i1 j high).1 k) := by
  intro arr pivot i1 j high
  induction arr, pivot, i1, j, high using quick.partLoop.induct with
  | case1 arr pivot i1 j high h hle ih =>
    intro L hij hjh hlen hple hpgt
    rw [quick.partLoop, if_pos h, if_pos hle]
    have hi1len : i1 < arr.length := by omega
    have hjlen : j < arr.length := by omega
    apply ih L (by omega) (by omega) (by rw [length_lswap]; exact hlen)
    · intro k hk1 hk2
      by_cases hki : k = i1
      · subst hki
        rw [idx_lswap_fst hi1len hjlen]
        exact hle
      · rw [idx_lswap_other (by omega) (by omega)]
        exact hple k hk1 (by omega)
    · intro k hk1 hk2
      by_cases hkj : k = j
      · subst hkj
        have hi1k : i1 < k := by omega
        rw [idx_lswap_snd hjlen]
        exact hpgt i1 le_rfl hi1k
      · rw [idx_lswap_other (by omega) hkj]
        exact hpgt k (by omega) (by omega)
  | case2 arr pivot i1 j high h hle ih =>
    intro L hij hjh hlen hple hpgt
    rw [quick.partLoop, if_pos h, if_neg hle]
    apply ih L (by omega) (by omega) hlen hple
    intro k hk1 hk2
    by_cases hkj : k = j
    · subst hkj
      exact lt_of_not_le hle
    · exact hpgt k hk1 (by omega)
  | case3 arr pivot i1 j high h =>
    intro L hij hjh hlen hple hpgt
    rw [quick.partLoop, if_neg h]
    exact ⟨fun k hk1 hk2 => hple k hk1 hk2, fun k hk1 hk2 => hpgt k hk1 (by omega)⟩

theorem partition_spec (choose : Nat → Nat → Nat) (arr : List Str) (low high : Nat)
    (h1 : low ≤ high) (h2 : high < arr.length) :
    (quick.partition choose arr low high).1.Perm arr ∧
    (∀ m, m < low ∨ high < m →
      (quick.partition choose arr low high).1[m]? = arr[m]?) ∧
    (∀ k, low ≤ k → k < (quick.partition choose arr low high).2 →
      idx (quick.partition choose arr low high).1 k ≤
        idx (quick.partition choose arr low high).1 (quick.partition choose arr low high).2) ∧
    (∀ k, (quick.partition choose arr low high).2 < k → k ≤ high →
      idx (quick.partition choose arr low high).1 (quick.partition choose arr low high).2 <
        idx (quick.partition choose arr low high).1 k) := by
  have hmod : choose low high % (high + 1 - low) < high + 1 - low :=
    Nat.mod_lt _ (by omega)
  have hpid : low + choose low high % (high + 1 - low) ≤ high := by omega
  have hpidlen : low + choose low high % (high + 1 - low) < arr.length := by omega
  have hA1perm : (lswap arr (low + choose low high % (high + 1 - low)) high).Perm arr :=
    lswap_perm arr _ high hpidlen h2
  have hA1len : (lswap arr (low + choose low high % (high + 1 - low)) high).length =
      arr.length := length_lswap _ _ _
  have hpb := quick.partLoop_snd_bounds
    (lswap arr (low + choose low high % (high + 1 - low)) high)
    (idx (lswap arr (low + choose low high % (high + 1 - low)) high) high)
    low low high le_rfl h1
  have htperm := partLoop_perm
    (lswap arr (low + choose low high % (high + 1 - low)) high)
    (idx (lswap arr (low + choose low high % (high + 1 - low)) high) high)
    low low high le_rfl (by omega)
  have htframe := partLoop_frame
    (lswap arr (low + choose low high % (high + 1 - low)) high)
    (idx (lswap arr (low + choose low high % (high + 1 - low)) high) high)
    low low high le_rfl
  have htlen : (quick.partLoop (lswap arr (low + choose low high % (high + 1 - low)) high)
      (idx (lswap arr (low + choose low high % (high + 1 - low)) high) high)
      low low high).1.length = arr.length := by
    rw [htperm.length_eq, hA1len]
  have hzones := partLoop_zones
    (lswap arr (low + choose low high % (high + 1 - low)) high)
    (idx (lswap arr (low + choose low high % (high + 1 - low)) high) high)
    low low high low le_rfl h1 (by omega)
    (fun k hk1 hk2 => absurd (by omega : k < k) (by omega))
    (fun k hk1 hk2 => absurd (by omega : k < k) (by omega))
  -- the pivot value sits at `high` after the loop
  have hpivhigh : idx (quick.partLoop (lswap arr (low + choose low high % (high + 1 - low)) high)
      (idx (lswap arr (low + choose low high % (high + 1 - low)) high) high)
      low low high).1 high =
      idx (lswap arr (low + choose low high % (high + 1 - low)) high) high :=
    idx_congr_of_getElem? (htframe high (Or.inr le_rfl))
  unfold quick.partition
  dsimp only
  -- value at the final pivot position
  have hfinp : idx (lswap (quick.partLoop (lswap arr (low + choose low high % (high + 1 - low)) high)
      (idx (lswap arr (low + choose low high % (high + 1 - low)) high) high)
      low low high).1 (quick.partLoop (lswap arr (low + choose low high % (high + 1 - low)) high)
      (idx (lswap arr (low + choose low high % (high + 1 - low)) high) high)
      low low high).2 high) (quick.partLoop (lswap arr (low + choose low high % (high + 1 - low)) high)
      (idx (lswap arr (low + choose low high % (high + 1 - low)) high) high)
      low low high).2 =
      idx (lswap arr (low + choose low high % (high + 1 - low)) high) high := by
    rw [idx_lswap_fst (by omega) (by omega)]
    exact hpivhigh
  refine ⟨?_, ?_, ?_, ?_⟩
  · exact ((lswap_perm _ _ _ (by omega) (by omega)).trans htperm).trans hA1perm
  · intro m hm
    rw [getElem?_lswap_other (by omega) (by omega), htframe m (by omega)]
    exact getElem?_lswap_other (by omega) (by omega)
  · intro k hk1 hk2
    rw [hfinp, idx_lswap_other (by omega) (by omega)]
    exact hzones.1 k hk1 hk2
  · intro k hk1 hk2
    rw [hfinp]
    by_cases hkh : k = high
    · rw [hkh]
      rw [hkh] at hk1
      exact lt_of_lt_of_eq (hzones.2 _ le_rfl hk1) (idx_lswap_snd (by omega)).symm
    · rw [idx_lswap_other (by omega) hkh]
      exact hzones.2 k (by omega) (by omega)

theorem perm_seg {l₁ l₂ : List Str} (hp : l₁.Perm l₂) (lo hi : Nat)
    (hf : ∀ m, m < lo ∨ hi < m → l₁[m]? = l₂[m]?) :
    ((l₁.take (hi + 1)).drop lo).Perm ((l₂.take (hi + 1)).drop lo) := by
  have ht : (l₁.take (hi + 1)).Perm (l₂.take (hi + 1)) := by
    apply perm_take_of_perm_of_drop_eq hp
    apply List.ext_getElem?
    intro m
    rw [List.getElem?_drop, List.getElem?_drop]
    exact hf (hi + 1 + m) (by omega)
  apply perm_drop_of_perm_of_take_eq ht
  apply List.ext_getElem?
  intro m
  simp only [List.getElem?_take]
  by_cases hm : m < lo
  · by_cases hm2 : m < hi + 1
    · rw [if_pos hm, if_pos hm, if_pos hm2, if_pos hm2]
      exact hf m (Or.inl hm)
    · rw [if_pos hm, if_pos hm, if_neg hm2, if_neg hm2]
  · rw [if_neg hm, if_neg hm]

theorem seg_mem_imp {l : List Str} {lo hi : Nat} {x : Str}
    (h : x ∈ (l.take (hi + 1)).drop lo) :
    ∃ k, lo ≤ k ∧ k ≤ hi ∧ k < l.length ∧ idx l k = x := by
  rw [List.mem_iff_getElem] at h
  obtain ⟨t, ht, hval⟩ := h
  have htlen : lo + t < (l.take (hi + 1)).length := by
    rw [List.length_drop] at ht
    omega
  have hlen2 : lo + t < l.length := by
    rw [List.length_take] at htlen
    omega
  have hhi : lo + t < hi + 1 := by
    rw [List.length_take] at htlen
    omega
  refine ⟨lo + t, by omega, by omega, hlen2, ?_⟩
  rw [idx_eq_getElem hlen2]
  rw [← hval, List.getElem_drop, List.getElem_take]

theorem idx_mem_seg {l : List Str} {lo hi k : Nat} (h1 : lo ≤ k) (h2 : k ≤ hi)
    (h3 : k < l.length) : idx l k ∈ (l.take (hi + 1)).drop lo := by
  rw [List.mem_iff_getElem]
  have hlen : k - lo < ((l.take (hi + 1)).drop lo).length := by
    rw [List.length_drop, List.length_take]
    omega
  refine ⟨k - lo, hlen, ?_⟩
  rw [List.getElem_drop, List.getElem_take, idx_eq_getElem h3]
  congr 1
  omega

theorem qsortLoop_spec : ∀ (choose : Nat → Nat → Nat) (arr : List Str) (low high : Nat),
    (low < high → high < arr.length) →
    (quick.qsortLoop choose arr low high).Perm arr ∧
    (∀ m, m < low ∨ high < m ∨ high ≤ low →
      (quick.qsortLoop choose arr low high)[m]? = arr[m]?) ∧
    (∀ k1 k2, low ≤ k1 → k1 ≤ k2 → k2 ≤ high →
      idx (quick.qsortLoop choose arr low high) k1 ≤
        idx (quick.qsortLoop choose arr low high) k2) := by
  intro choose arr low high
  induction arr, low, high using quick.qsortLoop.induct choose with
  | case1 arr low high h ih1 ih2 =>
    intro hlen'
    have hlen : high < arr.length := hlen' h
    rw [quick.qsortLoop, dif_pos h]
    obtain ⟨hPperm, hPframe, hPle, hPgt⟩ :=
      partition_spec choose arr low high (le_of_lt h) hlen
    obtain ⟨hpl, hph⟩ := quick.partition_snd_bounds choose arr low high (le_of_lt h)
    have hP1len : (quick.partition choose arr low high).1.length = arr.length :=
      hPperm.length_eq
    obtain ⟨hAperm, hAframe, hAsort⟩ := ih1 (by omega)
    have hAlen : (quick.qsortLoop choose (quick.partition choose arr low high).1 low
        ((quick.partition choose arr low high).2 - 1)).length = arr.length := by
      rw [hAperm.length_eq, hP1len]
    obtain ⟨hBperm, hBframe, hBsort⟩ := ih2 (by omega)
    have hBlen : (quick.qsortLoop choose (quick.qsortLoop choose
        (quick.partition choose arr low high).1 low
        ((quick.partition choose arr low high).2 - 1))
        ((quick.partition choose arr low high).2 + 1) high).length = arr.length := by
      rw [hBperm.length_eq, hAlen]
    have hApoint : ∀ k, (quick.partition choose arr low high).2 ≤ k →
        idx (quick.qsortLoop choose (quick.partition choose arr low high).1 low
          ((quick.partition choose arr low high).2 - 1)) k =
        idx (quick.partition choose arr low high).1 k := by
      intro k hk
      exact idx_congr_of_getElem? (hAframe k (by omega))
    have hBpoint : ∀ k, k ≤ (quick.partition choose arr low high).2 →
        idx (quick.qsortLoop choose (quick.qsortLoop choose
          (quick.partition choose arr low high).1 low
          ((quick.partition choose arr low high).2 - 1))
          ((quick.partition choose arr low high).2 + 1) high) k =
        idx (quick.qsortLoop choose (quick.partition choose arr low high).1 low
          ((quick.partition choose arr low high).2 - 1)) k := by
      intro k hk
      exact idx_congr_of_getElem? (hBframe k (by omega))
    have hpivB : idx (quick.qsortLoop choose (quick.qsortLoop choose
        (quick.partition choose arr low high).1 low
        ((quick.partition choose arr low high).2 - 1))
        ((quick.partition choose arr low high).2 + 1) high)
        (quick.partition choose arr low high).2 =
        idx (quick.partition choose arr low high).1
          (quick.partition choose arr low high).2 := by
      rw [hBpoint _ le_rfl, hApoint _ le_rfl]
    -- the left zone of the final array is bounded by the pivot
    have hleftA : ∀ k, low ≤ k → k < (quick.partition choose arr low high).2 →
        idx (quick.qsortLoop choose (quick.partition choose arr low high).1 low
          ((quick.partition choose arr low high).2 - 1)) k ≤
        idx (quick.partition choose arr low high).1
          (quick.partition choose arr low high).2 := by
      intro k hk1 hk2
      have hmem := idx_mem_seg hk1 (by omega : k ≤ (quick.partition choose arr low high).2 - 1)
        (by omega : k < (quick.qsortLoop choose (quick.partition choose arr low high).1 low
          ((quick.partition choose arr low high).2 - 1)).length)
      have hsegperm := perm_seg hAperm low ((quick.partition choose arr low high).2 - 1)
        (fun m hm => hAframe m (hm.imp id Or.inl))
      have hmem2 := hsegperm.subset hmem
      obtain ⟨k', hk'1, hk'2, hk'3, hk'4⟩ := seg_mem_imp hmem2
      rw [← hk'4]
      exact hPle k' hk'1 (by omega)
    -- the right zone of the final array exceeds the pivot
    have hrightB : ∀ k, (quick.partition choose arr low high).2 < k → k ≤ high →
        idx (quick.partition choose arr low high).1
          (quick.partition choose arr low high).2 <
        idx (quick.qsortLoop choose (quick.qsortLoop choose
          (quick.partition choose arr low high).1 low
          ((quick.partition choose arr low high).2 - 1))
          ((quick.partition choose arr low high).2 + 1) high) k := by
      intro k hk1 hk2
      have hmem := idx_mem_seg (by omega : (quick.partition choose arr low high).2 + 1 ≤ k)
        hk2 (by omega : k < (quick.qsortLoop choose (quick.qsortLoop choose
          (quick.partition choose arr low high).1 low
          ((quick.partition choose arr low high).2 - 1))
          ((quick.partition choose arr low high).2 + 1) high).length)
      have hsegperm := perm_seg hBperm ((quick.partition choose arr low high).2 + 1) high
        (fun m hm => hBframe m (hm.imp id Or.inl))
      have hmem2 := hsegperm.subset hmem
      -- the middle segment of the left-sorted array equals that of the
      -- partitioned array
      have hsegeq : ((quick.qsortLoop choose (quick.partition choose arr low high).1 low
          ((quick.partition choose arr low high).2 - 1)).take (high + 1)).drop
            ((quick.partition choose arr low high).2 + 1) =
          ((quick.partition choose arr low high).1.take (high + 1)).drop
            ((quick.partition choose arr low high).2 + 1) := by
        apply List.ext_getElem?
        intro t
        rw [List.getElem?_drop, List.getElem?_drop, List.getElem?_take, List.getElem?_take]
        by_cases hlt : (quick.partition choose arr low high).2 + 1 + t < high + 1
        · rw [if_pos hlt, if_pos hlt]
          exact hAframe _ (by omega)
        · rw [if_neg hlt, if_neg hlt]
      rw [hsegeq] at hmem2
      obtain ⟨k', hk'1, hk'2, hk'3, hk'4⟩ := seg_mem_imp hmem2
      rw [← hk'4]
      exact hPgt k' (by omega) hk'2
    refine ⟨?_, ?_, ?_⟩
    · exact (hBperm.trans hAperm).trans hPperm
    · intro m hm
      rcases hm with h' | h' | h'
      · rw [hBframe m (by omega), hAframe m (by omega)]
        exact hPframe m (Or.inl h')
      · rw [hBframe m (by omega), hAframe m (by omega)]
        exact hPframe m (Or.inr h')
      · exact absurd h' (by omega)
    · intro k1 k2 hk1 hk12 hk2
      by_cases hc2 : k2 < (quick.partition choose arr low high).2
      · rw [hBpoint k1 (by omega), hBpoint k2 (by omega)]
        exact hAsort k1 k2 hk1 hk12 (by omega)
      · by_cases hc2' : k2 = (quick.partition choose arr low high).2
        · by_cases hc1 : k1 = k2
          · subst hc1
            exact le_rfl
          · rw [hc2', hpivB, hBpoint k1 (by omega)]
            exact hleftA k1 hk1 (by omega)
        · -- k2 is beyond the pivot
          have hk2gt : (quick.partition choose arr low high).2 < k2 := by omega
          by_cases hc1 : k1 ≤ (quick.partition choose arr low high).2
          · by_cases hc1' : k1 = (quick.partition choose arr low high).2
            · subst hc1'
              rw [hpivB]
              exact le_of_lt (hrightB k2 hk2gt hk2)
            · rw [hBpoint k1 (by omega)]
              refine le_trans (hleftA k1 hk1 (by omega)) ?_
              exact le_of_lt (hrightB k2 hk2gt hk2)
          · exact hBsort k1 k2 (by omega) hk12 hk2
  | case2 arr low high h =>
    intro hlen'
    rw [quick.qsortLoop, dif_neg h]
    refine ⟨List.Perm.refl arr, fun m hm => rfl, ?_⟩
    intro k1 k2 hk1 hk12 hk2
    have : k1 = k2 := by omega
    subst this
    exact le_rfl

theorem quick_sort_perm (choose : Nat → Nat → Nat) (data : List Str) :
    (quick.sort choose data).Perm data :=
  (qsortLoop_spec choose data 0 (data.length - 1) (fun _ => by omega)).1

theorem quick_sort_sorted (choose : Nat → Nat → Nat) (data : List Str) :
    List.Sorted (· ≤ ·) (quick.sort choose data) := by
  have hspec := qsortLoop_spec choose data 0 (data.length - 1) (fun _ => by omega)
  have hlen : (quick.sort choose data).length = data.length :=
    (quick_sort_perm choose data).length_eq
  unfold List.Sorted
  rw [List.pairwise_iff_get]
  intro i j hij
  have hi : (i : Nat) < (quick.sort choose data).length := i.2
  have hj : (j : Nat) < (quick.sort choose data).length := j.2
  rw [List.get_eq_getElem, List.get_eq_getElem, ← idx_eq_getElem hi, ← idx_eq_getElem hj]
  exact hspec.2.2 i j (Nat.zero_le _) (le_of_lt hij) (by omega)

/-! ## counting.py: correctness -/

theorem strLe_trans (a b c : Str) (h1 : strLe a b = true) (h2 : strLe b c = true) :
    strLe a c = true := by
  rw [strLe, decide_eq_true_iff] at h1 h2 ⊢
  exact le_trans h1 h2

theorem strLe_total (a b : Str) : (strLe a b || strLe b a) = true := by
  rw [strLe, strLe, Bool.or_eq_true, decide_eq_true_iff, decide_eq_true_iff]
  exact le_total a b

theorem pySorted_strLe_sorted (l : List Str) :
    List.Sorted (· ≤ ·) (pySorted strLe l) := by
  have h := List.sorted_mergeSort strLe_trans strLe_total l
  exact h.imp (fun hab => by rwa [strLe, decide_eq_true_iff] at hab)

theorem pySorted_perm {α : Type} (le : α → α → Bool) (l : List α) :
    (pySorted le l).Perm l :=
  List.mergeSort_perm l le

theorem key_lt {x y : Str} (h : x.take 1 < y.take 1) : x < y := by
  cases x with
  | nil =>
    cases y with
    | nil => exact absurd h (lt_irrefl _)
    | cons c ys => exact List.nil_lt_cons c ys
  | cons a xs =>
    cases y with
    | nil =>
      exact absurd (h : List.Lex (· < ·) ((a :: xs).take 1) [])
        (List.Lex.not_nil_right _ _)
    | cons c ys =>
      have h' : List.Lex (· < ·) [a] [c] := h
      have hac : a < c := by
        cases h' with
        | rel h2 => exact h2
        | cons h2 => cases h2
      show List.Lex (· < ·) (a :: xs) (c :: ys)
      exact List.Lex.rel hac

theorem addToBucket_flatten (bs : List (Str × List Str)) (key : Str) (s : Str) :
    ((counting.addToBucket bs key s).map Prod.snd).flatten.Perm
      ((bs.map Prod.snd).flatten ++ [s]) := by
  induction bs with
  | nil => simp [counting.addToBucket]
  | cons p rest ih =>
    obtain ⟨k, b⟩ := p
    rw [counting.addToBucket]
    by_cases hk : k = key
    · rw [if_pos hk]
      simp only [List.map_cons, List.flatten_cons, List.append_assoc]
      exact List.Perm.append_left b List.perm_append_comm
    · rw [if_neg hk]
      simp only [List.map_cons, List.flatten_cons, List.append_assoc]
      exact ih.append_left b

theorem addToBucket_key (bs : List (Str × List Str)) (s : Str)
    (h : ∀ p ∈ bs, ∀ x ∈ p.2, x.take 1 = p.1) :
    ∀ p ∈ counting.addToBucket bs (s.take 1) s, ∀ x ∈ p.2, x.take 1 = p.1 := by
  induction bs with
  | nil =>
    intro p hp x hx
    rw [counting.addToBucket] at hp
    rw [List.mem_singleton] at hp
    subst hp
    rw [List.mem_singleton] at hx
    subst hx
    rfl
  | cons q rest ih =>
    obtain ⟨k, b⟩ := q
    intro p hp x hx
    rw [counting.addToBucket] at hp
    by_cases hk : k = s.take 1
    · rw [if_pos hk] at hp
      rcases List.mem_cons.mp hp with rfl | hp'
      · rcases List.mem_append.mp hx with hx' | hx'
        · exact h (k, b) (List.mem_cons_self _ _) x hx'
        · rw [List.mem_singleton] at hx'
          subst hx'
          exact hk.symm
      · exact h p (List.mem_cons_of_mem _ hp') x hx
    · rw [if_neg hk] at hp
      rcases List.mem_cons.mp hp with rfl | hp'
      · exact h (k, b) (List.mem_cons_self _ _) x hx
      · exact ih (fun q hq => h q (List.mem_cons_of_mem _ hq)) p hp' x hx

theorem addToBucket_keys_sub (bs : List (Str × List Str)) (key : Str) (s : Str) :
    ∀ k ∈ (counting.addToBucket bs key s).map Prod.fst,
      k ∈ key :: bs.map Prod.fst := by
  induction bs with
  | nil =>
    intro k hk
    rw [counting.addToBucket] at hk
    simp at hk
    simp [hk]
  | cons q rest ih =>
    obtain ⟨k', b⟩ := q
    intro k hk
    rw [counting.addToBucket] at hk
    by_cases hkq : k' = key
    · rw [if_pos hkq] at hk
      simp only [List.map_cons, List.mem_cons] at hk ⊢
      tauto
    · rw [if_neg hkq] at hk
      simp only [List.map_cons, List.mem_cons] at hk ⊢
      rcases hk with rfl | hk'
      · tauto
      · have := ih k hk'
        simp only [List.mem_cons] at this
        tauto

theorem addToBucket_nodup (bs : List (Str × List Str)) (key : Str) (s : Str)
    (h : (bs.map Prod.fst).Nodup) :
    ((counting.addToBucket bs key s).map Prod.fst).Nodup := by
  induction bs with
  | nil =>
    rw [counting.addToBucket]
    simp
  | cons q rest ih =>
    obtain ⟨k, b⟩ := q
    rw [counting.addToBucket]
    simp only [List.map_cons, List.nodup_cons] at h
    by_cases hk : k = key
    · rw [if_pos hk]
      simp only [List.map_cons, List.nodup_cons]
      exact h
    · rw [if_neg hk]
      simp only [List.map_cons, List.nodup_cons]
      refine ⟨?_, ih h.2⟩
      intro hc
      have := addToBucket_keys_sub rest key s k hc
      rcases List.mem_cons.mp this with rfl | hmem
      · exact hk rfl
      · exact h.1 hmem

theorem buildBuckets_flatten (data : List Str) :
    (((counting.buildBuckets data).map Prod.snd).flatten).Perm data := by
  suffices h : ∀ (acc : List (Str × List Str)) (l : List Str),
      (((l.foldl (fun bs s => counting.addToBucket bs (s.take 1) s) acc).map
        Prod.snd).flatten).Perm ((acc.map Prod.snd).flatten ++ l) by
    have := h [] data
    simpa [counting.buildBuckets] using this
  intro acc l
  induction l generalizing acc with
  | nil => simp
  | cons s rest ih =>
    rw [List.foldl_cons]
    refine (ih (counting.addToBucket acc (s.take 1) s)).trans ?_
    refine ((addToBucket_flatten acc (s.take 1) s).append_right rest).trans ?_
    rw [List.append_assoc]
    exact List.Perm.refl _

theorem buildBuckets_key (data : List Str) :
    ∀ p ∈ counting.buildBuckets data, ∀ x ∈ p.2, x.take 1 = p.1 := by
  suffices h : ∀ (acc : List (Str × List Str)) (l : List Str),
      (∀ p ∈ acc, ∀ x ∈ p.2, x.take 1 = p.1) →
      ∀ p ∈ l.foldl (fun bs s => counting.addToBucket bs (s.take 1) s) acc,
        ∀ x ∈ p.2, x.take 1 = p.1 by
    exact h [] data (by simp)
  intro acc l
  induction l generalizing acc with
  | nil => intro hacc; exact hacc
  | cons s rest ih =>
    intro hacc
    rw [List.foldl_cons]
    exact ih (counting.addToBucket acc (s.take 1) s) (addToBucket_key acc s hacc)

theorem buildBuckets_nodup (data : List Str) :
    ((counting.buildBuckets data).map Prod.fst).Nodup := by
  suffices h : ∀ (acc : List (Str × List Str)) (l : List Str),
      (acc.map Prod.fst).Nodup →
      ((l.foldl (fun bs s => counting.addToBucket bs (s.take 1) s) acc).map
        Prod.fst).Nodup by
    exact h [] data (by simp)
  intro acc l
  induction l generalizing acc with
  | nil => intro hacc; exact hacc
  | cons s rest ih =>
    intro hacc
    rw [List.foldl_cons]
    exact ih _ (addToBucket_nodup acc (s.take 1) s hacc)

theorem lookupBucket_mem (bs : List (Str × List Str)) (k : Str)
    (h : k ∈ bs.map Prod.fst) : (k, counting.lookupBucket bs k) ∈ bs := by
  induction bs with
  | nil => simp at h
  | cons q rest ih =>
    obtain ⟨k', b⟩ := q
    rw [counting.lookupBucket]
    by_cases hk : k' = k
    · rw [if_pos hk]
      subst hk
      exact List.mem_cons_self _ _
    · rw [if_neg hk]
      simp only [List.map_cons, List.mem_cons] at h
      rcases h with rfl | h'
      · exact absurd rfl hk
      · exact List.mem_cons_of_mem _ (ih h')

theorem lookupBucket_of_nodup (bs : List (Str × List Str))
    (h : (bs.map Prod.fst).Nodup) :
    (bs.map Prod.fst).map (counting.lookupBucket bs) = bs.map Prod.snd := by
  induction bs with
  | nil => rfl
  | cons q rest ih =>
    obtain ⟨k, b⟩ := q
    simp only [List.map_cons, List.nodup_cons] at h ⊢
    have hhead : counting.lookupBucket ((k, b) :: rest) k = b := by
      rw [counting.lookupBucket, if_pos rfl]
    have hrest : ∀ k' ∈ rest.map Prod.fst,
        counting.lookupBucket ((k, b) :: rest) k' = counting.lookupBucket rest k' := by
      intro k' hk'
      rw [counting.lookupBucket]
      rw [if_neg (fun hc : k = k' => h.1 (hc ▸ hk'))]
    rw [hhead, List.map_congr_left hrest, ih h.2]

theorem lookupBucket_not_mem (bs : List (Str × List Str)) (k : Str)
    (h : k ∉ bs.map Prod.fst) : counting.lookupBucket bs k = [] := by
  induction bs with
  | nil => rfl
  | cons q rest ih =>
    obtain ⟨k', b⟩ := q
    rw [counting.lookupBucket]
    simp only [List.map_cons, List.mem_cons] at h
    rw [if_neg (fun hc => h (Or.inl hc.symm))]
    exact ih (fun hc => h (Or.inr hc))

theorem foldl_append_eq_flatten_map (f : Str → List Str) (l : List Str) :
    l.foldl (fun acc key => acc ++ f key) [] = (l.map f).flatten := by
  suffices h : ∀ acc, l.foldl (fun acc key => acc ++ f key) acc = acc ++ (l.map f).flatten by
    simpa using h []
  induction l with
  | nil => intro acc; simp
  | cons x rest ih =>
    intro acc
    rw [List.foldl_cons, ih, List.map_cons, List.flatten_cons, List.append_assoc]

theorem flatten_map_pySorted_perm (g : Str → List Str) (l : List Str) :
    ((l.map fun k => pySorted strLe (g k)).flatten).Perm ((l.map g).flatten) := by
  induction l with
  | nil => exact List.Perm.refl _
  | cons x rest ih =>
    simp only [List.map_cons, List.flatten_cons]
    exact (pySorted_perm strLe (g x)).append ih

theorem counting_sort_perm (data : List Str) : (counting.sort data).Perm data := by
  rw [counting.sort]
  by_cases hemp : data.isEmpty
  · rw [if_pos hemp]
  · rw [if_neg hemp]
    rw [foldl_append_eq_flatten_map]
    refine (flatten_map_pySorted_perm (counting.lookupBucket (counting.buildBuckets data))
      (pySorted strLe ((counting.buildBuckets data).map Prod.fst))).trans ?_
    have hperm1 : ((pySorted strLe ((counting.buildBuckets data).map Prod.fst)).map
        (counting.lookupBucket (counting.buildBuckets data))).Perm
        (((counting.buildBuckets data).map Prod.fst).map
          (counting.lookupBucket (counting.buildBuckets data))) :=
      (pySorted_perm strLe _).map _
    refine (hperm1.flatten).trans ?_
    rw [lookupBucket_of_nodup _ (buildBuckets_nodup data)]
    exact buildBuckets_flatten data

theorem counting_sort_sorted (data : List Str) :
    List.Sorted (· ≤ ·) (counting.sort data) := by
  rw [counting.sort]
  by_cases hemp : data.isEmpty
  · rw [if_pos hemp]
    rw [List.isEmpty_iff] at hemp
    subst hemp
    simp
  · rw [if_neg hemp]
    rw [foldl_append_eq_flatten_map]
    unfold List.Sorted
    rw [List.pairwise_flatten]
    constructor
    · intro l' hl'
      rw [List.mem_map] at hl'
      obtain ⟨k, hk, rfl⟩ := hl'
      exact pySorted_strLe_sorted _
    · rw [List.pairwise_map]
      have hsorted : List.Sorted (· ≤ ·)
          (pySorted strLe ((counting.buildBuckets data).map Prod.fst)) :=
        pySorted_strLe_sorted _
      have hnodup : (pySorted strLe ((counting.buildBuckets data).map Prod.fst)).Nodup :=
        ((pySorted_perm strLe _).symm).nodup (buildBuckets_nodup data)
      have hcomb : List.Pairwise (fun a b => a ≤ b ∧ a ≠ b)
          (pySorted strLe ((counting.buildBuckets data).map Prod.fst)) :=
        List.Pairwise.and hsorted hnodup
      refine hcomb.imp ?_
      intro k1 k2 hk12 x hx y hy
      obtain ⟨hle, hne⟩ := hk12
      have hx' : x ∈ counting.lookupBucket (counting.buildBuckets data) k1 :=
        (pySorted_perm strLe _).subset hx
      have hy' : y ∈ counting.lookupBucket (counting.buildBuckets data) k2 :=
        (pySorted_perm strLe _).subset hy
      -- keys of nonempty buckets appear among the bucket keys
      have hxkey : x.take 1 = k1 := by
        by_cases hk1mem : k1 ∈ (counting.buildBuckets data).map Prod.fst
        · exact buildBuckets_key data _ (lookupBucket_mem _ _ hk1mem) x hx'
        · exfalso
          rw [lookupBucket_not_mem _ _ hk1mem] at hx'
          simp at hx'
      have hykey : y.take 1 = k2 := by
        by_cases hk2mem : k2 ∈ (counting.buildBuckets data).map Prod.fst
        · exact buildBuckets_key data _ (lookupBucket_mem _ _ hk2mem) y hy'
        · exfalso
          rw [lookupBucket_not_mem _ _ hk2mem] at hy'
          simp at hy'
      have hklt : x.take 1 < y.take 1 := by
        rw [hxkey, hykey]
        exact lt_of_le_of_ne hle hne
      exact le_of_lt (key_lt hklt)

/-! ## radix.py: the `IndexError` on code points outside the byte range -/

theorem somes_cons_some (a : Str × Nat) (l : List (Option (Str × Nat))) :
    somes (some a :: l) = a :: somes l := rfl

theorem somes_cons_none (l : List (Option (Str × Nat))) :
    somes (none :: l) = somes l := rfl

theorem somes_replicate_none : ∀ n : Nat, somes (List.replicate n (none : Option (Str × Nat))) = []
  | 0 => rfl
  | n + 1 => somes_replicate_none n

theorem somes_le_cons (b : Str × Nat) (l : List (Option (Str × Nat))) :
    (↑(somes l) : Multiset (Str × Nat)) ≤ ↑(somes (some b :: l)) := by
  rw [somes_cons_some, ← Multiset.cons_coe]
  exact Multiset.le_cons_self _ _

theorem somes_set_le (l : List (Option (Str × Nat))) (k : Nat) (a : Str × Nat) :
    (↑(somes (l.set k (some a))) : Multiset (Str × Nat)) ≤ a ::ₘ ↑(somes l) := by
  induction l generalizing k with
  | nil =>
    rw [List.set_nil]
    exact le_trans (le_refl 0) (Multiset.zero_le _)
  | cons x xs ih =>
    cases k with
    | zero =>
      rw [List.set_cons_zero, somes_cons_some, ← Multiset.cons_coe]
      refine Multiset.cons_le_cons a ?_
      cases x with
      | none => rw [somes_cons_none]
      | some b => exact somes_le_cons b xs
    | succ k =>
      rw [List.set_cons_succ]
      cases x with
      | none =>
        rw [somes_cons_none, somes_cons_none]
        exact ih k
      | some b =>
        rw [somes_cons_some, somes_cons_some, ← Multiset.cons_coe, ← Multiset.cons_coe]
        calc (b ::ₘ ↑(somes (xs.set k (some a))) : Multiset (Str × Nat))
            ≤ b ::ₘ a ::ₘ ↑(somes xs) := Multiset.cons_le_cons b (ih k)
          _ = a ::ₘ b ::ₘ ↑(somes xs) := Multiset.cons_swap b a _

theorem placePhase_length (pos : Nat) :
    ∀ (rev : List (Str × Nat)) (count : List Nat) (output : List (Option (Str × Nat))),
      (radix.placePhase pos rev count output).1.length = output.length := by
  intro rev
  induction rev with
  | nil => intro count output; rfl
  | cons it rev ih =>
    intro count output
    rw [radix.placePhase, ih, List.length_set]

theorem placePhase_somes_le (pos : Nat) :
    ∀ (rev : List (Str × Nat)) (count : List Nat) (output : List (Option (Str × Nat))),
      (↑(somes (radix.placePhase pos rev count output).1) : Multiset (Str × Nat)) ≤
        ↑(somes output) + ↑rev := by
  intro rev
  induction rev with
  | nil =>
    intro count output
    rw [radix.placePhase]
    simp
  | cons it rev ih =>
    intro count output
    rw [radix.placePhase]
    refine le_trans (ih _ _) ?_
    refine le_trans (add_le_add_right (somes_set_le output _ it) _) ?_
    rw [← Multiset.cons_coe, Multiset.cons_add, Multiset.add_cons]

theorem desome_eq {α : Type} : ∀ (l : List (Option α)) (v : List α),
    radix.desome l = some v → v = somes l ∧ l.length = v.length := by
  intro l
  induction l with
  | nil =>
    intro v h
    rw [radix.desome] at h
    cases h
    exact ⟨rfl, rfl⟩
  | cons x xs ih =>
    intro v h
    cases x with
    | none =>
      rw [radix.desome] at h
      cases h
    | some a =>
      rw [radix.desome] at h
      cases hx : radix.desome xs with
      | none => rw [hx] at h; cases h
      | some v' =>
        rw [hx] at h
        cases h
        obtain ⟨h1, h2⟩ := ih v' hx
        refine ⟨?_, ?_⟩
        · rw [h1]; rfl
        · simp only [List.length_cons, h2]

theorem passAt_perm (padded : List (Str × Nat)) (pos : Nat) (out : List (Str × Nat))
    (h : radix.passAt padded pos = some out) : out.Perm padded := by
  rw [radix.passAt] at h
  cases hc : radix.countPhase padded pos with
  | none => rw [hc] at h; cases h
  | some count0 =>
    rw [hc] at h
    simp only [Option.some_bind] at h
    obtain ⟨hv, hlen⟩ := desome_eq _ _ h
    have hle : (↑out : Multiset (Str × Nat)) ≤ ↑padded.reverse := by
      have := placePhase_somes_le pos padded.reverse (radix.prefixPhase count0 1)
        (List.replicate padded.length none)
      rw [somes_replicate_none] at this
      simpa [hv] using this
    have hcard : Multiset.card (↑padded.reverse : Multiset (Str × Nat)) ≤
        Multiset.card (↑out : Multiset (Str × Nat)) := by
      have h1 : out.length = padded.length := by
        rw [← hlen, placePhase_length, List.length_replicate]
      simp [h1]
    have := Multiset.eq_of_le_of_card_le hle hcard
    exact (Multiset.coe_eq_coe.mp this).trans padded.reverse_perm

theorem bumpCount_length {count count' : List Nat} {c : Nat}
    (h : radix.bumpCount count c = some count') : count'.length = count.length := by
  rw [radix.bumpCount] at h
  split at h
  · cases h
    rw [List.length_set]
  · cases h

theorem countPhase_none_aux (pos : Nat) :
    ∀ (l : List (Str × Nat)) (count : List Nat), count.length = 256 →
      (∃ it ∈ l, 256 ≤ ordAt it.1 pos) →
      l.foldlM (fun c it => radix.bumpCount c (ordAt it.1 pos)) count = none := by
  intro l
  induction l with
  | nil =>
    rintro count _ ⟨it, hmem, _⟩
    simp at hmem
  | cons it l ih =>
    rintro count hlen ⟨it', hmem, hbig⟩
    rw [List.foldlM_cons]
    rcases List.mem_cons.mp hmem with rfl | hmem'
    · have hb : radix.bumpCount count (ordAt it'.1 pos) = none := by
        rw [radix.bumpCount, if_neg (by omega)]
      rw [hb]
      rfl
    · cases hb : radix.bumpCount count (ordAt it.1 pos) with
      | none => rfl
      | some count' =>
        exact ih count' (by rw [bumpCount_length hb, hlen]) ⟨it', hmem', hbig⟩

theorem countPhase_none (padded : List (Str × Nat)) (pos : Nat)
    (h : ∃ it ∈ padded, 256 ≤ ordAt it.1 pos) :
    radix.countPhase padded pos = none :=
  countPhase_none_aux pos padded _ (by rw [List.length_replicate]) h

theorem posLoop_none : ∀ (n : Nat) (padded : List (Str × Nat)),
    (∃ it ∈ padded, ∃ p, p < n ∧ 256 ≤ ordAt it.1 p) →
    radix.posLoop padded n = none := by
  intro n
  induction n with
  | zero =>
    rintro padded ⟨it, _, p, hp, _⟩
    omega
  | succ m ih =>
    rintro padded ⟨it, hmem, p, hp, hbig⟩
    rw [radix.posLoop]
    cases hpass : radix.passAt padded m with
    | none => rfl
    | some padded' =>
      by_cases hpm : p = m
      · exfalso
        rw [radix.passAt, countPhase_none padded m ⟨it, hmem, hpm ▸ hbig⟩] at hpass
        cases hpass
      · have hperm := passAt_perm padded m padded' hpass
        simp only [Option.some_bind]
        exact ih padded' ⟨it, hperm.mem_iff.mpr hmem, p, by omega, hbig⟩

theorem foldl_max_init_le : ∀ (l : List Str) (m : Nat),
    m ≤ l.foldl (fun a s => max a s.length) m := by
  intro l
  induction l with
  | nil => intro m; exact le_refl m
  | cons s l ih =>
    intro m
    rw [List.foldl_cons]
    exact le_trans (Nat.le_max_left m s.length) (ih _)

theorem length_le_foldl_max : ∀ (l : List Str) (m : Nat) (s : Str), s ∈ l →
    s.length ≤ l.foldl (fun a s => max a s.length) m := by
  intro l
  induction l with
  | nil => intro m s h; simp at h
  | cons x l ih =>
    intro m s h
    rw [List.foldl_cons]
    rcases List.mem_cons.mp h with rfl | h'
    · exact le_trans (Nat.le_max_right m s.length) (foldl_max_init_le l _)
    · exact ih _ s h'

theorem ordAt_pad_of_lt (s : Str) (m j : Nat) (hj : j < s.length) :
    ordAt (radix.pad s m) j = (s.get ⟨j, hj⟩).toNat := by
  rw [radix.pad, ordAt, List.getD_append _ _ _ _ hj, List.getD_eq_getElem _ _ hj]
  rfl

theorem radix_sort_none (data : List Str)
    (h : ∃ s ∈ data, ∃ c ∈ s, 256 ≤ c.toNat) : radix.sort data = none := by
  obtain ⟨s, hs, c, hc, hbig⟩ := h
  obtain ⟨i, hi, hsi⟩ := List.mem_iff_getElem.mp hs
  obtain ⟨j, hj, hcj⟩ := List.mem_iff_getElem.mp hc
  simp only [radix.sort]
  have hpos : radix.posLoop
      ((data.enum).map fun it => (radix.pad it.2 (data.foldl (fun m s => max m s.length) 0), it.1))
      (data.foldl (fun m s => max m s.length) 0) = none := by
    refine posLoop_none _ _
      ⟨(radix.pad s (data.foldl (fun m s => max m s.length) 0), i), ?_, j, ?_, ?_⟩
    · refine List.mem_map.mpr ⟨(i, s), ?_, rfl⟩
      have hlen : i < data.enum.length := by rw [List.enum_length]; exact hi
      have : data.enum[i] = (i, s) := by rw [List.getElem_enum, hsi]
      rw [← this]
      exact List.getElem_mem hlen
    · have h1 : s.length ≤ data.foldl (fun m s => max m s.length) 0 :=
        length_le_foldl_max data 0 s hs
      omega
    · rw [ordAt_pad_of_lt s _ j hj]
      have : s.get ⟨j, hj⟩ = c := hcj
      rw [this]
      exact hbig
  rw [hpos]
  rfl

/-! ## benchmark.py: harness lemmas -/

theorem availLoop_eq (files : List Str) :
    availLoop files =
      (files.filter fun f =>
        decide (f.drop (f.length - 3) = ".py".toList ∧
          f ≠ "__init__.py".toList ∧ f.take 1 ≠ ['_'])).map pyStem := by
  induction files with
  | nil => rfl
  | cons f rest ih =>
    rw [availLoop, List.filter_cons]
    by_cases h1 : f.drop (f.length - 3) = ".py".toList
    · rw [if_pos h1]
      by_cases h2 : f ≠ "__init__.py".toList ∧ f.take 1 ≠ ['_']
      · rw [if_pos h2, if_pos (by rw [decide_eq_true_iff]; exact ⟨h1, h2.1, h2.2⟩),
          List.map_cons, ih]
      · rw [if_neg h2, if_neg ?_, ih]
        simp only [decide_eq_true_iff]
        rintro ⟨-, hb, hc⟩
        exact h2 ⟨hb, hc⟩
    · rw [if_neg h1, if_neg ?_, ih]
      simp only [decide_eq_true_iff]
      rintro ⟨ha, -, -⟩
      exact h1 ha

theorem warnLoop_eq (ref : List Str) (refAlg : Str) : ∀ l : List BenchmarkResult,
    warnLoop ref refAlg l =
      (l.filter fun r => decide (r.sorted_data ≠ ref)).map fun r => (r.algorithm, refAlg) := by
  intro l
  induction l with
  | nil => rfl
  | cons r rest ih =>
    rw [warnLoop, List.filter_cons]
    by_cases h : r.sorted_data ≠ ref
    · rw [if_pos h, if_pos (by simpa using h), List.map_cons, ih]
    · rw [if_neg h, if_neg (by simpa using h), ih]

theorem run_all_systemExit (registry : Registry) (tm : Str → ℚ) (data : List Str) :
    ∀ (names : List Str) (name : Str), name ∈ names → (registry name).isNone = true →
      run_all_benchmarks registry tm data names = .error PyErr.systemExit := by
  intro names
  induction names with
  | nil =>
    intro name h1 _
    simp at h1
  | cons n rest ih =>
    intro name h1 h2
    rw [run_all_benchmarks]
    rcases List.mem_cons.mp h1 with rfl | hmem
    · have hn : registry name = none := Option.isNone_iff_eq_none.mp h2
      simp [benchmark_algorithm, load_algorithm, hn]
    · cases hb : benchmark_algorithm registry tm n data with
      | ok r => rw [ih name hmem h2]; rfl
      | error e =>
        cases e with
        | systemExit => rfl
        | exc => exact ih name hmem h2

theorem run_all_ok (registry : Registry) (tm : Str → ℚ) (data : List Str) :
    ∀ names : List Str, (∀ name ∈ names, (registry name).isSome = true) →
      run_all_benchmarks registry tm data names =
        .ok (names.filterMap fun name =>
          (registry name).bind fun f =>
            (f data).map fun out => (⟨name, tm name, out⟩ : BenchmarkResult)) := by
  intro names
  induction names with
  | nil => intro _; rfl
  | cons n rest ih =>
    intro h
    have hrest := ih fun m hm => h m (List.mem_cons_of_mem _ hm)
    obtain ⟨f, hf⟩ := Option.isSome_iff_exists.mp (h n (List.mem_cons_self _ _))
    rw [run_all_benchmarks, List.filterMap_cons]
    cases hfd : f data with
    | none =>
      have hb : benchmark_algorithm registry tm n data = .error PyErr.exc := by
        simp [benchmark_algorithm, load_algorithm, hf, hfd]
      rw [hb, hrest, hf]
      simp [hfd]
    | some out =>
      have hb : benchmark_algorithm registry tm n data =
          .ok ⟨n, tm n, out⟩ := by
        simp [benchmark_algorithm, load_algorithm, hf, hfd]
      rw [hb, hrest, hf]
      simp [hfd, Except.map]

theorem foldlMin_spec : ∀ (l : List BenchmarkResult) (b : BenchmarkResult),
    l.foldl (fun best r => if r.time < best.time then r else best) b ∈ b :: l ∧
    ∀ r ∈ b :: l,
      (l.foldl (fun best r => if r.time < best.time then r else best) b).time ≤ r.time := by
  intro l
  induction l with
  | nil =>
    intro b
    refine ⟨List.mem_cons_self _ _, ?_⟩
    intro r hr
    rw [List.mem_singleton] at hr
    subst hr
    exact le_refl _
  | cons x xs ih =>
    intro b
    rw [List.foldl_cons]
    by_cases hx : x.time < b.time
    · rw [if_pos hx]
      obtain ⟨hm, hle⟩ := ih x
      constructor
      · rcases List.mem_cons.mp hm with h' | hm'
        · rw [h']; exact List.mem_cons_of_mem _ (List.mem_cons_self _ _)
        · exact List.mem_cons_of_mem _ (List.mem_cons_of_mem _ hm')
      · intro r hr
        rcases List.mem_cons.mp hr with rfl | hr'
        · exact le_trans (hle x (List.mem_cons_self _ _)) (le_of_lt hx)
        · exact hle r hr'
    · rw [if_neg hx]
      obtain ⟨hm, hle⟩ := ih b
      constructor
      · rcases List.mem_cons.mp hm with h' | hm'
        · rw [h']; exact List.mem_cons_self _ _
        · exact List.mem_cons_of_mem _ (List.mem_cons_of_mem _ hm')
      · intro r hr
        rcases List.mem_cons.mp hr with rfl | hr'
        · exact hle r (List.mem_cons_self _ _)
        · rcases List.mem_cons.mp hr' with rfl | hr''
          · exact le_trans (hle b (List.mem_cons_self _ _)) (le_of_not_lt hx)
          · exact hle r (List.mem_cons_of_mem _ hr'')

/-! ## The store model: the dataset cell is never written -/

theorem readRef_append_lt (σ τ : Store) (d : Nat) (h : d < σ.length) :
    readRef (σ ++ τ) d = readRef σ d := by
  rw [readRef, readRef, List.getD_append _ _ _ _ h]

theorem readRef_set_ne (σ : Store) (k : Nat) (v : List Str) (d : Nat) (h : d ≠ k) :
    readRef (σ.set k v) d = readRef σ d := by
  simp [readRef, List.getD_eq_getElem?_getD, List.getElem?_set_ne (show k ≠ d by omega)]

theorem benchmark_algorithmM_length (core : List Str → List Str) (σ : Store) (r : Nat) :
    (benchmark_algorithmM core σ r).1.length = σ.length + 2 := by
  rw [benchmark_algorithmM, stratM]
  simp [allocRef, writeRef, readRef]

theorem benchmark_algorithmM_frame (core : List Str → List Str) (σ : Store) (r d : Nat)
    (h : d < σ.length) :
    readRef (benchmark_algorithmM core σ r).1 d = readRef σ d := by
  rw [benchmark_algorithmM, stratM]
  simp only [allocRef, writeRef]
  rw [readRef_set_ne _ _ _ _ (by simp; omega)]
  rw [readRef_append_lt _ _ _ (by simp; omega)]
  rw [readRef_append_lt _ _ _ h]

theorem run_all_benchmarksM_frame : ∀ (cores : List (List Str → List Str)) (σ : Store)
    (dataRef d : Nat), d < σ.length →
    readRef (run_all_benchmarksM cores σ dataRef) d = readRef σ d := by
  intro cores
  induction cores with
  | nil => intro σ _ d _; rfl
  | cons c rest ih =>
    intro σ dataRef d h
    rw [run_all_benchmarksM, List.foldl_cons]
    have h2 : d < (benchmark_algorithmM c σ dataRef).1.length := by
      rw [benchmark_algorithmM_length]; omega
    have := ih (benchmark_algorithmM c σ dataRef).1 dataRef d h2
    rw [run_all_benchmarksM] at this
    rw [this]
    exact benchmark_algorithmM_frame c σ dataRef d h

/-! ## benchmark.py: the comparison table -/

theorem resLe_trans (a b c : BenchmarkResult) (h1 : resLe a b = true)
    (h2 : resLe b c = true) : resLe a c = true := by
  rw [resLe, decide_eq_true_iff] at h1 h2 ⊢
  exact le_trans h1 h2

theorem resLe_total (a b : BenchmarkResult) : (resLe a b || resLe b a) = true := by
  rw [resLe, resLe, Bool.or_eq_true, decide_eq_true_iff, decide_eq_true_iff]
  exact le_total a.time b.time

theorem ratLe_trans (a b c : ℚ) (h1 : decide (a ≤ b) = true)
    (h2 : decide (b ≤ c) = true) : decide (a ≤ c) = true := by
  rw [decide_eq_true_iff] at h1 h2 ⊢
  exact le_trans h1 h2

theorem ratLe_total (a b : ℚ) : (decide (a ≤ b) || decide (b ≤ a)) = true := by
  rw [Bool.or_eq_true, decide_eq_true_iff, decide_eq_true_iff]
  exact le_total a b

theorem pySorted_resLe_time_sorted (results : List BenchmarkResult) :
    (pySorted resLe results).Pairwise fun a b : BenchmarkResult => a.time ≤ b.time := by
  have h := List.sorted_mergeSort resLe_trans resLe_total results
  exact h.imp fun hab => by rwa [resLe, decide_eq_true_iff] at hab

theorem pySorted_ratLe_sorted (ts : List ℚ) :
    List.Sorted (· ≤ ·) (pySorted (fun a b : ℚ => decide (a ≤ b)) ts) := by
  have h := List.sorted_mergeSort ratLe_trans ratLe_total ts
  exact h.imp fun hab => by rwa [decide_eq_true_iff] at hab

theorem pySorted_resLe_filter_time (results : List BenchmarkResult) (q : ℚ) :
    (pySorted resLe results).filter (fun r => decide (r.time = q)) =
      results.filter fun r => decide (r.time = q) := by
  have hA_pw : (results.filter fun r => decide (r.time = q)).Pairwise
      fun a b : BenchmarkResult => resLe a b = true := by
    refine List.pairwise_of_forall_mem_list ?_
    intro a ha b hb
    have ha' := (List.mem_filter.mp ha).2
    have hb' := (List.mem_filter.mp hb).2
    rw [decide_eq_true_iff] at ha' hb'
    rw [resLe, decide_eq_true_iff, ha', hb']
  have hsub : (results.filter fun r => decide (r.time = q)).Sublist
      (pySorted resLe results) :=
    List.sublist_mergeSort resLe_trans resLe_total hA_pw (List.filter_sublist results)
  have hsub2 : (results.filter fun r => decide (r.time = q)).Sublist
      ((pySorted resLe results).filter fun r => decide (r.time = q)) := by
    have hself : ((results.filter fun r => decide (r.time = q)).filter
        fun r => decide (r.time = q)) = results.filter fun r => decide (r.time = q) :=
      List.filter_eq_self.mpr fun a ha => (List.mem_filter.mp ha).2
    rw [← hself]
    exact hsub.filter _
  have hperm : ((pySorted resLe results).filter fun r => decide (r.time = q)).Perm
      (results.filter fun r => decide (r.time = q)) :=
    (pySorted_perm resLe results).filter _
  exact (hsub2.eq_of_length hperm.length_eq.symm).symm

theorem map_comp_snd_enum {β γ : Type} (l : List BenchmarkResult)
    (F : Nat × BenchmarkResult → β) (G : β → γ) (H : BenchmarkResult → γ)
    (h : ∀ p, G (F p) = H p.2) : (l.enum.map F).map G = l.map H := by
  rw [List.map_map]
  have hfun : (G ∘ F) = fun p : Nat × BenchmarkResult => H p.2 := funext fun p => h p
  rw [hfun]
  rw [show (fun p : Nat × BenchmarkResult => H p.2) = (H ∘ Prod.snd) from rfl]
  rw [← List.map_map, List.enum_map_snd]

theorem filter_comp_snd_enum {β : Type} (l : List BenchmarkResult)
    (F : Nat × BenchmarkResult → β) (p : β → Bool) (pa : BenchmarkResult → Bool)
    (h : ∀ q : Nat × BenchmarkResult, p (F q) = pa q.2) :
    (l.enum.map F).filter p = (l.enum.filter fun q => pa q.2).map F := by
  rw [List.filter_map]
  congr 1
  refine List.filter_congr ?_
  intro q _
  exact h q

theorem map_snd_filter_snd (l : List BenchmarkResult) (pa : BenchmarkResult → Bool) :
    ((l.enum.filter fun q => pa q.2).map Prod.snd) = l.filter pa := by
  rw [show (fun q : Nat × BenchmarkResult => pa q.2) = (pa ∘ Prod.snd) from rfl,
    ← List.filter_map, List.enum_map_snd]

theorem map_proj_of_comp {β γ : Type} (l : List (Nat × BenchmarkResult))
    (F : Nat × BenchmarkResult → β) (G : β → γ) (H : BenchmarkResult → γ)
    (h : ∀ p, G (F p) = H p.2) : (l.map F).map G = (l.map Prod.snd).map H := by
  rw [List.map_map, List.map_map]
  exact List.map_congr_left fun p _ => h p

/-! ## The claims -/

/-- Claim C1 (corrected).  Eight of the ten bundled strategies — bubble,
counting, heap, insertion, merge, quick (for every pivot oracle), selection
and shell — return a permutation of the input that is non-decreasing under
the lexicographic code-point order, for every input list of strings.  The
spec's claim of this for all ten is refuted by `bucket.sort`
(`counterexample_C1`: its case-insensitive first-letter binning is not
lexicographic) and by `radix.sort` (which can raise instead of returning,
see C3). -/
theorem claim_C1 (data : List Str) :
    ((bubble.sort data).Perm data ∧ List.Sorted (· ≤ ·) (bubble.sort data)) ∧
    ((counting.sort data).Perm data ∧ List.Sorted (· ≤ ·) (counting.sort data)) ∧
    ((heap.sort data).Perm data ∧ List.Sorted (· ≤ ·) (heap.sort data)) ∧
    ((insertion.sort data).Perm data ∧ List.Sorted (· ≤ ·) (insertion.sort data)) ∧
    ((merge.sort data).Perm data ∧ List.Sorted (· ≤ ·) (merge.sort data)) ∧
    (∀ choose : Nat → Nat → Nat,
      (quick.sort choose data).Perm data ∧ List.Sorted (· ≤ ·) (quick.sort choose data)) ∧
    ((selection.sort data).Perm data ∧ List.Sorted (· ≤ ·) (selection.sort data)) ∧
    ((shell.sort data).Perm data ∧ List.Sorted (· ≤ ·) (shell.sort data)) :=
  ⟨⟨bubble_sort_perm data, bubble_sort_sorted data⟩,
   ⟨counting_sort_perm data, counting_sort_sorted data⟩,
   ⟨heap_sort_perm data, heap_sort_sorted data⟩,
   ⟨insertion_sort_perm data, insertion_sort_sorted data⟩,
   ⟨merge_sort_perm data, merge_sort_sorted data⟩,
   fun choose => ⟨quick_sort_perm choose data, quick_sort_sorted choose data⟩,
   ⟨selection_sort_perm data, selection_sort_sorted data⟩,
   ⟨shell_sort_perm data, shell_sort_sorted data⟩⟩

/-- Counterexample to C1 as stated: `bucket.sort` on the two-string input
`["B", "a"]` returns `["a", "B"]`, which is not sorted under the
lexicographic code-point order (`'a' = 97 > 'B' = 66`). -/
theorem counterexample_C1 :
    bucket.sort [['B'], ['a']] = [['a'], ['B']] ∧
      ¬ List.Sorted (· ≤ ·) [(['a'] : Str), ['B']] :=
  ⟨by simp [bucket.sort, bucket.distribute, bucket.appendAt, bucket.insertionSortAux,
      gapPass, shiftIns, idx, pyIsAlphaAscii, pyLowerAscii], by decide⟩

/-- Claim C2 (corrected).  A load failure does **not** leave the rest of the
batch running: if any requested name is missing from the registry (its module
is absent or lacks a `sort` attribute), `load_algorithm` runs `sys.exit(1)`,
and the resulting `SystemExit` — which `except Exception` does not catch —
terminates the whole `run_all_benchmarks` call. -/
theorem claim_C2 (registry : Registry) (tm : Str → ℚ) (data : List Str)
    (names : List Str) (name : Str) (h1 : name ∈ names)
    (h2 : (registry name).isNone = true) :
    run_all_benchmarks registry tm data names = .error PyErr.systemExit :=
  run_all_systemExit registry tm data names name h1 h2

/-- Witness for C2 at a concrete input: requesting `nosuch` (not a bundled
module) followed by `bubble` kills the whole batch. -/
theorem claim_C2_witness :
    run_all_benchmarks bundledRegistry (fun _ => 0) [['a']]
      ["nosuch".toList, "bubble".toList] = .error PyErr.systemExit :=
  claim_C2 bundledRegistry (fun _ => 0) [['a']] ["nosuch".toList, "bubble".toList]
    "nosuch".toList (by decide) (by decide)

/-- Counterexample to C2 as stated: with the bundled registry and the
requested names `["nosuch", "bubble"]`, the run terminates with
`SystemExit` and `bubble` is never benchmarked — the failure is not
isolated to the bad name. -/
theorem counterexample_C2 :
    run_all_benchmarks bundledRegistry (fun _ => 0) [['b'], ['a']]
      ["nosuch".toList, "bubble".toList] = .error PyErr.systemExit := rfl

/-- Claim C3 (corrected).  `radix.sort` does **not** return an output for
inputs containing a character whose code point is 256 or more: the character
indexes past the end of the 256-cell count array, and the `IndexError`
(modelled as `none`) propagates out of `sort`. -/
theorem claim_C3 (data : List Str)
    (h : ∃ s ∈ data, ∃ c ∈ s, 256 ≤ c.toNat) : radix.sort data = none :=
  radix_sort_none data h

/-- Witness for C3 at a concrete input: `"Ā"` (U+0100, the first code point
past the byte range) makes `radix.sort` raise. -/
theorem claim_C3_witness :
    (∃ s ∈ [[Char.ofNat 256]], ∃ c ∈ s, 256 ≤ c.toNat) ∧
      radix.sort [[Char.ofNat 256]] = none :=
  ⟨by decide, claim_C3 [[Char.ofNat 256]] (by decide)⟩

/-- Counterexample to C3 as stated: on `["a", "Ĭ"]` (the second string holds
code point 300) `radix.sort` raises (`none`) instead of returning a
byte-wise-ordered output sequence. -/
theorem counterexample_C3 : radix.sort [['a'], [Char.ofNat 300]] = none := rfl

/-- Claim C4 (corrected).  `get_available_algorithms` reports a missing
`sorting` directory and exits (`sys.exit(1)`), and on a directory listing it
returns the stems of the `*.py` entries other than `__init__.py` and
`_`-prefixed names **in listing order**: the names are deterministic given
the listing but are never sorted (`glob` order is preserved), refuting the
spec's "deterministically sorted". -/
theorem claim_C4 (listing : Option (List Str)) :
    (listing = none → get_available_algorithms listing = .error PyErr.systemExit) ∧
    (∀ files, listing = some files →
      get_available_algorithms listing =
        .ok ((files.filter fun f =>
          decide (f.drop (f.length - 3) = ".py".toList ∧
            f ≠ "__init__.py".toList ∧ f.take 1 ≠ ['_'])).map pyStem)) := by
  constructor
  · rintro rfl
    rfl
  · rintro files rfl
    show Except.ok (availLoop files) = _
    rw [availLoop_eq]

/-- Witness for C4 at a concrete listing: `__init__.py`, a `_`-prefixed
helper and a non-`.py` entry are all excluded. -/
theorem claim_C4_witness :
    get_available_algorithms
      (some ["bubble.py".toList, "__init__.py".toList, "_helper.py".toList,
        "notes.txt".toList]) = .ok ["bubble".toList] := by
  rw [(claim_C4 (some ["bubble.py".toList, "__init__.py".toList, "_helper.py".toList,
    "notes.txt".toList])).2 ["bubble.py".toList, "__init__.py".toList,
    "_helper.py".toList, "notes.txt".toList] rfl]
  rfl

/-- Counterexample to C4 as stated: the listing `["b.py", "a.py"]` yields
`["b", "a"]`, which is not sorted — the result follows the filesystem
listing order, not a sorted order. -/
theorem counterexample_C4 :
    get_available_algorithms (some ["b.py".toList, "a.py".toList]) =
      .ok ["b".toList, "a".toList] ∧
    ¬ List.Sorted (· ≤ ·) [("b".toList : Str), "a".toList] :=
  ⟨rfl, by decide⟩

/-- Claim C5 (confirmed).  `verify_sorting` reports nothing when there are
fewer than two results, and otherwise warns — naming the mismatching
algorithm and the reference (first) algorithm — for exactly those later
results whose output differs from the first result's output. -/
theorem claim_C5 (results : List BenchmarkResult) :
    (results.length < 2 → verify_sorting results = []) ∧
    (∀ r0 rest, results = r0 :: rest → 2 ≤ results.length →
      verify_sorting results =
        (rest.filter fun r => decide (r.sorted_data ≠ r0.sorted_data)).map
          fun r => (r.algorithm, r0.algorithm)) := by
  constructor
  · intro h
    rw [verify_sorting.eq_def, if_pos h]
  · rintro r0 rest rfl h
    rw [verify_sorting.eq_def, if_neg (by omega)]
    exact warnLoop_eq r0.sorted_data r0.algorithm rest

/-- Witness for C5 at a concrete input: of two later results, exactly the
one whose output differs from the reference is reported, paired with the
reference algorithm's name. -/
theorem claim_C5_witness :
    verify_sorting [⟨"m".toList, 0, [['x']]⟩, ⟨"b".toList, 0, [['y']]⟩,
      ⟨"c".toList, 0, [['x']]⟩] = [("b".toList, "m".toList)] := by
  rw [(claim_C5 [⟨"m".toList, 0, [['x']]⟩, ⟨"b".toList, 0, [['y']]⟩,
    ⟨"c".toList, 0, [['x']]⟩]).2 ⟨"m".toList, 0, [['x']]⟩
    [⟨"b".toList, 0, [['y']]⟩, ⟨"c".toList, 0, [['x']]⟩] rfl (by decide)]
  decide

/-- Claim C7 (confirmed).  When every requested module loads, a strategy
exception during execution is caught and the loop continues: the returned
list holds exactly one result per non-failing name, in request order, each
carrying that algorithm's name and its output. -/
theorem claim_C7 (registry : Registry) (tm : Str → ℚ) (data : List Str)
    (names : List Str) (h : ∀ name ∈ names, (registry name).isSome = true) :
    run_all_benchmarks registry tm data names =
      .ok (names.filterMap fun name =>
        (registry name).bind fun f =>
          (f data).map fun out => (⟨name, tm name, out⟩ : BenchmarkResult)) :=
  run_all_ok registry tm data names h

/-- Witness for C7 at a concrete input: of `["good", "broken", "good2"]`
where `broken` raises during execution, the run returns results for `good`
and `good2` only, in that order. -/
theorem claim_C7_witness :
    run_all_benchmarks
      (fun name => if name = "broken".toList then some fun _ => none
        else some fun d => some d)
      (fun _ => 0) [['a']] ["good".toList, "broken".toList, "good2".toList] =
      .ok [⟨"good".toList, 0, [['a']]⟩, ⟨"good2".toList, 0, [['a']]⟩] := by
  rw [claim_C7 (fun name => if name = "broken".toList then some fun _ => none
    else some fun d => some d) (fun _ => 0) [['a']]
    ["good".toList, "broken".toList, "good2".toList] (by decide)]
  rfl

/-- Claim C8 (confirmed).  `quick.sort`'s output does not depend on the
random pivot choices: any two pivot oracles give the same output on the same
input (each bundled strategy is a pure function of its input in this
embedding; `quick` is the only one with a nondeterministic ingredient). -/
theorem claim_C8 (data : List Str) (o1 o2 : Nat → Nat → Nat) :
    quick.sort o1 data = quick.sort o2 data :=
  List.eq_of_perm_of_sorted
    ((quick_sort_perm o1 data).trans (quick_sort_perm o2 data).symm)
    (quick_sort_sorted o1 data) (quick_sort_sorted o2 data)

/-- Claim C9 (confirmed).  In the store model — where `data.copy()`
allocates a fresh cell and every bundled strategy's in-place loops act on
the cell the strategy itself allocated — running the whole benchmark batch
leaves the caller's dataset cell untouched. -/
theorem claim_C9 (cores : List (List Str → List Str)) (σ : Store) (dataRef : Nat)
    (h : dataRef < σ.length) :
    readRef (run_all_benchmarksM cores σ dataRef) dataRef = readRef σ dataRef :=
  run_all_benchmarksM_frame cores σ dataRef dataRef h

/-- Witness for C9 at a concrete input: benchmarking `bubble.sort` against a
one-cell store leaves the unsorted dataset cell unchanged. -/
theorem claim_C9_witness :
    readRef (run_all_benchmarksM [fun d => bubble.sort d] [[['b'], ['a']]] 0) 0 =
      readRef [[['b'], ['a']]] 0 :=
  claim_C9 [fun d => bubble.sort d] [[['b'], ['a']]] 0 (by decide)

/-- Claim C10 (confirmed).  A successful `write_file` stores exactly the
given lines, in order, under the fixed `sorted_output/` directory, and a
failed write reports the error (second component `true`) without aborting;
when saving is requested, a single `-a` selection is saved as
`<algorithm>_<basename>` with the first result's output, and otherwise
`fastest_<basename>` holds the output of a minimum-elapsed result. -/
theorem claim_C10 (writeOk : Bool) (fs : FS) (outputFlag : Bool)
    (algOpt : Option Str) (file : Str) (results : List BenchmarkResult) :
    (∀ filename data, writeOk = true →
      fsRead (write_file writeOk fs filename data).1
          ("sorted_output/".toList ++ filename) = some data ∧
        (write_file writeOk fs filename data).2 = false) ∧
    (∀ filename data, writeOk = false →
      (write_file writeOk fs filename data).1 = fs ∧
        (write_file writeOk fs filename data).2 = true) ∧
    (outputFlag = false ∨ results = [] →
      saveOutput writeOk fs outputFlag algOpt file results = (fs, false)) ∧
    (∀ alg r0 rest, outputFlag = true → algOpt = some alg → results = r0 :: rest →
      saveOutput writeOk fs outputFlag algOpt file results =
        write_file writeOk fs (alg ++ ['_'] ++ pyBasename file) r0.sorted_data) ∧
    (outputFlag = true → algOpt = none → results ≠ [] →
      ∃ r ∈ results, (∀ r' ∈ results, r.time ≤ r'.time) ∧
        saveOutput writeOk fs outputFlag algOpt file results =
          write_file writeOk fs ("fastest_".toList ++ pyBasename file)
            r.sorted_data) := by
  refine ⟨?_, ?_, ?_, ?_, ?_⟩
  · rintro filename data rfl
    refine ⟨?_, rfl⟩
    rw [write_file, if_pos rfl, fsRead, if_pos rfl]
  · rintro filename data rfl
    exact ⟨rfl, rfl⟩
  · intro h
    rw [saveOutput.eq_def, if_neg]
    rcases h with h | h
    · rintro ⟨h1, -⟩
      rw [h] at h1
      cases h1
    · rintro ⟨-, h2⟩
      exact h2 h
  · rintro alg r0 rest rfl rfl rfl
    rw [saveOutput.eq_def, if_pos ⟨rfl, List.cons_ne_nil r0 rest⟩, List.headD_cons]
  · rintro rfl rfl hne
    cases results with
    | nil => exact absurd rfl hne
    | cons r0 rest =>
      have hsave : saveOutput writeOk fs true none file (r0 :: rest) =
          write_file writeOk fs ("fastest_".toList ++ pyBasename file)
            (rest.foldl (fun best r => if r.time < best.time then r else best)
              r0).sorted_data := by
        rw [saveOutput.eq_def, if_pos ⟨rfl, List.cons_ne_nil r0 rest⟩]
        rw [List.headD_cons, List.foldl_cons, if_neg (lt_irrefl r0.time)]
      have hfold := foldlMin_spec rest r0
      refine ⟨rest.foldl (fun best r => if r.time < best.time then r else best) r0,
        ?_, ?_, ?_⟩
      · exact hfold.1
      · exact hfold.2
      · exact hsave

/-- Witness for C10 at a concrete input: a successful write of two lines is
readable back, in order, under `sorted_output/`, and reports no error. -/
theorem claim_C10_witness :
    fsRead (write_file true [] "fastest_words.txt".toList [['b'], ['a']]).1
        ("sorted_output/".toList ++ "fastest_words.txt".toList) =
      some [['b'], ['a']] ∧
    (write_file true [] "fastest_words.txt".toList [['b'], ['a']]).2 = false :=
  (claim_C10 true [] true none "words.txt".toList []).1
    "fastest_words.txt".toList [['b'], ['a']] rfl

theorem rows_getD (S : List BenchmarkResult) (F : Nat × BenchmarkResult → TableRow)
    (i : Nat) (h : i < S.length) :
    (S.enum.map F).getD i default = F (i, S[i]) := by
  rw [List.getD_eq_getElem _ _ (by rw [List.length_map, List.enum_length]; exact h)]
  rw [List.getElem_map, List.getElem_enum]

theorem headD_eq_getElem (l : List BenchmarkResult) (h : 0 < l.length) :
    l.headD default = l[0] := by
  cases l with
  | nil => simp at h
  | cons a t => rfl

theorem getD_zero_le_of_pairwise (l : List TableRow)
    (h : l.Pairwise fun a b : TableRow => a.time ≤ b.time) :
    ∀ row ∈ l, (l.getD 0 default).time ≤ row.time := by
  cases l with
  | nil =>
    intro row hr
    simp at hr
  | cons t0 ts =>
    intro row hr
    rw [List.getD_cons_zero]
    rcases List.mem_cons.mp hr with rfl | hr'
    · exact le_refl _
    · exact (List.pairwise_cons.mp h).1 row hr'

/-- Claim C6 (confirmed).  With no results the table is not rendered
(`none`) and no statistic is computed; otherwise the rows are the results
reordered by ascending elapsed time, stably (for each time value, the
algorithms appear in original request order), every middle row's relative
performance is its elapsed time divided by the fastest (first, minimal)
row's elapsed time, the average is the arithmetic mean of all elapsed
times, and the median is the middle value of the sorted elapsed times — the
average of the two middle values for an even count. -/
theorem claim_C6 (results : List BenchmarkResult) :
    (results = [] → display_comparison_table results = none) ∧
    (results ≠ [] → ∃ rows avg median,
      display_comparison_table results = some ⟨rows, avg, median⟩ ∧
      (rows.map fun row => (row.algorithm, row.time)).Perm
        (results.map fun r => (r.algorithm, r.time)) ∧
      rows.Pairwise (fun a b : TableRow => a.time ≤ b.time) ∧
      (∀ q : ℚ, (rows.filter fun row => decide (row.time = q)).map
          (fun row => (row.algorithm, row.time)) =
        (results.filter fun r => decide (r.time = q)).map
          fun r => (r.algorithm, r.time)) ∧
      (∀ i, 0 < i → i + 1 < rows.length →
        (rows.getD i default).perf =
          Perf.ratio ((rows.getD i default).time / (rows.getD 0 default).time)) ∧
      (∀ row ∈ rows, (rows.getD 0 default).time ≤ row.time) ∧
      avg = (results.map fun r => r.time).sum / (results.length : ℚ) ∧
      List.Sorted (· ≤ ·)
        (pySorted (fun a b : ℚ => decide (a ≤ b)) (results.map fun r => r.time)) ∧
      (pySorted (fun a b : ℚ => decide (a ≤ b)) (results.map fun r => r.time)).Perm
        (results.map fun r => r.time) ∧
      (results.length % 2 = 1 → median =
        (pySorted (fun a b : ℚ => decide (a ≤ b)) (results.map fun r => r.time)).getD
          (results.length / 2) 0) ∧
      (results.length % 2 = 0 → median =
        ((pySorted (fun a b : ℚ => decide (a ≤ b)) (results.map fun r => r.time)).getD
            (results.length / 2 - 1) 0 +
          (pySorted (fun a b : ℚ => decide (a ≤ b)) (results.map fun r => r.time)).getD
            (results.length / 2) 0) / 2)) := by
  constructor
  · rintro rfl
    rfl
  · intro hne
    set S := pySorted resLe results with hS
    have hf0 : results.isEmpty = false := by
      cases results with
      | nil => exact absurd rfl hne
      | cons a l => rfl
    have hpwS : S.Pairwise fun a b : BenchmarkResult => a.time ≤ b.time := by
      rw [hS]
      exact pySorted_resLe_time_sorted results
    have hlenS : S.length = results.length := by
      rw [hS]
      exact (pySorted_perm resLe results).length_eq
    have hlen0 : 0 < S.length := by
      rw [hlenS]
      cases results with
      | nil => exact absurd rfl hne
      | cons a l => simp
    have hpwR : (S.enum.map fun p => (⟨p.2.algorithm, p.2.time,
        if p.1 = 0 then Perf.fastest
        else if p.1 = S.length - 1 then Perf.slowest
        else Perf.ratio (p.2.time / (S.headD default).time)⟩ : TableRow)).Pairwise
        (fun a b : TableRow => a.time ≤ b.time) := by
      have h0 : (S.enum.map Prod.snd).Pairwise
          fun a b : BenchmarkResult => a.time ≤ b.time := by
        rw [List.enum_map_snd]
        exact hpwS
      have h1 := List.pairwise_map.mp h0
      exact List.Pairwise.map _ (fun a b hab => hab) h1
    refine ⟨S.enum.map fun p => (⟨p.2.algorithm, p.2.time,
        if p.1 = 0 then Perf.fastest
        else if p.1 = S.length - 1 then Perf.slowest
        else Perf.ratio (p.2.time / (S.headD default).time)⟩ : TableRow),
      pyMean (results.map fun r => r.time), pyMedian (results.map fun r => r.time),
      ?_, ?_, ?_, ?_, ?_, ?_, ?_, ?_, ?_, ?_, ?_⟩
    · rw [hS, display_comparison_table, hf0]
      rfl
    · rw [map_comp_snd_enum S _ _ (fun r : BenchmarkResult => (r.algorithm, r.time))
        fun p => rfl]
      rw [hS]
      exact (pySorted_perm resLe results).map _
    · exact hpwR
    · intro q
      rw [filter_comp_snd_enum S _ _ (fun r : BenchmarkResult => decide (r.time = q))
        fun p => rfl]
      rw [map_proj_of_comp _ _ _ (fun r : BenchmarkResult => (r.algorithm, r.time))
        fun p => rfl]
      rw [map_snd_filter_snd S fun r : BenchmarkResult => decide (r.time = q)]
      rw [hS, pySorted_resLe_filter_time]
    · intro i h0 h1
      rw [List.length_map, List.enum_length] at h1
      rw [rows_getD S _ i (by omega), rows_getD S _ 0 (by omega)]
      show (if i = 0 then Perf.fastest
        else if i = S.length - 1 then Perf.slowest
        else Perf.ratio (S[i].time / (S.headD default).time)) =
        Perf.ratio (S[i].time / S[0].time)
      rw [if_neg (by omega), if_neg (by omega), headD_eq_getElem S hlen0]
    · exact getD_zero_le_of_pairwise _ hpwR
    · rw [pyMean, List.length_map]
    · exact pySorted_ratLe_sorted _
    · exact pySorted_perm _ _
    · intro hodd
      rw [pyMedian, if_pos (by rw [List.length_map]; exact hodd), List.length_map]
    · intro heven
      rw [pyMedian, if_neg (by rw [List.length_map]; omega), List.length_map]

/-- Witness for C6 at concrete inputs: an empty result list renders no
table, a non-empty one does. -/
theorem claim_C6_witness :
    display_comparison_table [] = none ∧
    display_comparison_table [⟨"a".toList, 1, [['a']]⟩] ≠ none := by
  constructor
  · exact (claim_C6 []).1 rfl
  · obtain ⟨rows, avg, median, ht, -⟩ :=
      (claim_C6 [⟨"a".toList, 1, [['a']]⟩]).2 (List.cons_ne_nil _ _)
    rw [ht]
    simp
